import Mathlib

/-!
# Verification of git-historian (history builder and log parser)

Shallow embedding of `src/history.rs`, `src/parsing.rs` and `src/types.rs`.

Conventions of the embedding:
* `Rc<RefCell<HistoryNode<T>>>` links are modelled by indices into an explicit
  node store (`HistoryState.store`); sharing and interior mutation of the
  write-once `previous` field become index aliasing and store updates.
* `HashMap`/`HashSet` become association lists / membership lists (only
  `contains`/`insert`/`remove`/`get`/`entry` are used by the source, so
  iteration order never matters).
* A Rust panic (failed `assert!`, `unwrap` of `None`/`Err`, byte-slicing a
  string off a char boundary) and non-termination of `tail_of` are modelled by
  `Option`: `none` means the run does not complete normally.
* The user visitor `F: Fn(&Diff, &Commit) -> T` is modelled by the projection
  that returns the commit identifier; every call is recorded in `visitLog`,
  so "how often was the visitor invoked" is observable in the state.
-/

namespace GitHistorian

/-! ## Data model of `history.rs` -/

/-- `git2::Delta` restricted to the variants the builder's `match` names;
`deleted` stands for every status that falls into the `_ => ()` arm. -/
inductive DeltaKind where
  | added
  | deleted
  | modified
  | renamed
  | copied
deriving DecidableEq, Repr

/-- `HistoryNode<T>` from `history.rs` with `T` instantiated to the commit id
(the modelled visitor result).  `previous` holds a store index. -/
structure HistoryNode where
  data : Nat
  change_type : DeltaKind
  previous : Option Nat
deriving DecidableEq, Repr

/-- One `DiffDelta`: its status, `new_file` path and `old_file` path. -/
structure DiffDelta where
  status : DeltaKind
  newPath : String
  oldPath : String
deriving DecidableEq, Repr

/-- One commit as consumed by `append_diff`: its identity (fed to the
visitor) and its deltas in reported order. -/
structure CommitDiff where
  cid : Nat
  deltas : List DiffDelta
deriving DecidableEq, Repr

/-- `HistoryState` from `history.rs`, plus the explicit node store and the
log of visitor invocations. -/
structure HistoryState where
  store : List HistoryNode
  tree : List (String × Nat)
  pending_renames : List (String × List String)
  current_paths : List String
  visitLog : List Nat
deriving DecidableEq, Repr, Inhabited

/-! ## List-backed map/set primitives -/

/-- Index lookup in the node store. -/
def getIdx : List HistoryNode → Nat → Option HistoryNode
  | [], _ => none
  | x :: _, 0 => some x
  | _ :: xs, n + 1 => getIdx xs n

/-- Index update in the node store (no-op out of range, which never happens
in a run started from the initial state). -/
def setIdx : List HistoryNode → Nat → HistoryNode → List HistoryNode
  | [], _, _ => []
  | _ :: xs, 0, y => y :: xs
  | x :: xs, n + 1, y => x :: setIdx xs n y

/-- `HashMap::get` on an association list. -/
def lookupA {α : Type} : List (String × α) → String → Option α
  | [], _ => none
  | (k, v) :: t, key => if k = key then some v else lookupA t key

/-- `HashMap::remove` on an association list: the removed value and the rest. -/
def removeA {α : Type} : List (String × α) → String → Option (α × List (String × α))
  | [], _ => none
  | (k, v) :: t, key =>
    if k = key then some (v, t)
    else
      match removeA t key with
      | none => none
      | some (v', t') => some (v', (k, v) :: t')

/-- `pending_renames.entry(key).or_insert(Vec::new()).push(v)`. -/
def pushEntry : List (String × List String) → String → String → List (String × List String)
  | [], key, v => [(key, [v])]
  | (k, vs) :: t, key, v =>
    if k = key then (k, vs ++ [v]) :: t else (k, vs) :: pushEntry t key v

/-- `HashSet::insert`. -/
def insertPath (l : List String) (p : String) : List String :=
  if p ∈ l then l else p :: l

/-- `HashSet::remove`. -/
def removePath (l : List String) (p : String) : List String :=
  l.filter (fun q => q ≠ p)

/-! ## The builder's operations -/

/-- The `previous` field of the node at index `i`. -/
def prevOf (store : List HistoryNode) (i : Nat) : Option Nat :=
  match getIdx store i with
  | some n => n.previous
  | none => none

/-- Write `previous := some v` at index `t` (the one mutation the builder
performs on existing nodes). -/
def setPrev (store : List HistoryNode) (t v : Nat) : List HistoryNode :=
  match getIdx store t with
  | some n => setIdx store t ⟨n.data, n.change_type, some v⟩
  | none => store

/-- `tail_of`: follow `previous` links to the end of a chain.  The source
recurses unboundedly; `fuel` makes the model total, and every call the
builder makes passes `store.length + 1`, which suffices exactly when the
Rust recursion terminates. -/
def tail_of (store : List HistoryNode) : Nat → Nat → Option Nat
  | 0, _ => none
  | fuel + 1, i =>
    match prevOf store i with
    | none => some i
    | some j => tail_of store fuel j

/-- `HistoryState::new_node`: allocate a node with `previous: None`, invoking
the visitor (recorded in `visitLog`).  Returns the new node's index. -/
def new_node (st : HistoryState) (ctype : DeltaKind) (cid : Nat) : HistoryState × Nat :=
  ({ st with
      store := st.store ++ [⟨cid, ctype, none⟩],
      visitLog := st.visitLog ++ [cid] },
   st.store.length)

/-- `HistoryState::append_node`: if the key already has a chain, assert the
tail's `previous` is `None` and point it at `node`; otherwise install `node`
as the key's head. -/
def append_node (st : HistoryState) (node : Nat) (key : String) : Option HistoryState :=
  match lookupA st.tree key with
  | some head =>
    match tail_of st.store (st.store.length + 1) head with
    | none => none
    | some tail =>
      if prevOf st.store tail = none then
        some { st with store := setPrev st.store tail node }
      else none
  | none => some { st with tree := (key, node) :: st.tree }

/-- The `for l in to_link` loop inside `link_copies`. -/
def linkLoop (st : HistoryState) (tail : Nat) : List String → Option HistoryState
  | [] => some st
  | l :: ls =>
    match append_node st tail l with
    | none => none
    | some st' => linkLoop st' tail ls

/-- `HistoryState::link_copies`: pop the pending renames of `key` and append
the tail of `key`'s chain to each of them. -/
def link_copies (st : HistoryState) (key : String) : Option HistoryState :=
  match removeA st.pending_renames key with
  | none => some st
  | some (to_link, pending') =>
    match lookupA st.tree key with
    | none => none
    | some head =>
      match tail_of st.store (st.store.length + 1) head with
      | none => none
      | some tail => linkLoop { st with pending_renames := pending' } tail to_link

/-- The record update at the end of the rename/copy arm: note the old path,
watch it, and stop watching the new path. -/
def redirectPaths (st3 : HistoryState) (delta : DiffDelta) : HistoryState :=
  { st3 with
    pending_renames := pushEntry st3.pending_renames delta.oldPath delta.newPath,
    current_paths := removePath (insertPath st3.current_paths delta.oldPath) delta.newPath }

/-- The `match delta.status()` statement of `append_diff`, run after the node
for this delta was appended. -/
def afterNode (st2 : HistoryState) (delta : DiffDelta) : Option HistoryState :=
  match delta.status with
  | .modified => link_copies st2 delta.newPath
  | .added =>
    match link_copies st2 delta.newPath with
    | none => none
    | some st3 =>
      some { st3 with current_paths := removePath st3.current_paths delta.newPath }
  | .renamed =>
    match link_copies st2 delta.newPath with
    | none => none
    | some st3 => some (redirectPaths st3 delta)
  | .copied =>
    match link_copies st2 delta.newPath with
    | none => none
    | some st3 => some (redirectPaths st3 delta)
  | .deleted => some st2

/-- Appending the delta's node and dispatching on its status, once the gate
has passed. -/
def appendGated (st1 : HistoryState) (n : Nat) (delta : DiffDelta) : Option HistoryState :=
  match append_node st1 n delta.newPath with
  | none => none
  | some st2 => afterNode st2 delta

/-- The body of `append_diff`'s per-delta loop: gate on `current_paths`,
create the node, append it, then dispatch on the change kind. -/
def appendDelta (st : HistoryState) (cid : Nat) (delta : DiffDelta) : Option HistoryState :=
  if delta.newPath ∈ st.current_paths then
    appendGated (new_node st delta.status cid).1 (new_node st delta.status cid).2 delta
  else some st

/-- The per-delta loop of `HistoryState::append_diff`. -/
def appendDeltas (st : HistoryState) (cid : Nat) : List DiffDelta → Option HistoryState
  | [] => some st
  | d :: ds =>
    match appendDelta st cid d with
    | none => none
    | some st' => appendDeltas st' cid ds

/-- `HistoryState::append_diff` on one commit's diff. -/
def append_diff (st : HistoryState) (c : CommitDiff) : Option HistoryState :=
  appendDeltas st c.cid c.deltas

/-- `HistoryState::new`. -/
def initState (paths : List String) : HistoryState :=
  ⟨[], [], [], paths, []⟩

/-- The revwalk loop of `gather_history`, from an arbitrary state. -/
def gatherLoop (st : HistoryState) : List CommitDiff → Option HistoryState
  | [] => some st
  | c :: cs =>
    match append_diff st c with
    | none => none
    | some st' => gatherLoop st' cs

/-- `gather_history`: process the commit stream (newest first) from the
initial state seeded with the caller's paths. -/
def gather_history (paths : List String) (commits : List CommitDiff) : Option HistoryState :=
  gatherLoop (initState paths) commits

/-! ## Observation helpers on run results -/

/-- The head node index stored for `k`, if the run completed. -/
def resLookup (r : Option HistoryState) (k : String) : Option Nat :=
  match r with
  | some st => lookupA st.tree k
  | none => none

/-- The node at index `i` of the final store, if the run completed. -/
def resNode (r : Option HistoryState) (i : Nat) : Option HistoryNode :=
  match r with
  | some st => getIdx st.store i
  | none => none

/-- The visitor-invocation log of the final state, if the run completed. -/
def resLog (r : Option HistoryState) : Option (List Nat) :=
  match r with
  | some st => some st.visitLog
  | none => none

/-- The key set of the final tree, if the run completed. -/
def resKeys (r : Option HistoryState) : Option (List String) :=
  match r with
  | some st => some (st.tree.map (fun e => e.1))
  | none => none

/-- Follow exactly `k` `previous` steps from node `i`. -/
def followN (store : List HistoryNode) : Nat → Nat → Option Nat
  | 0, i => some i
  | k + 1, i =>
    match prevOf store i with
    | none => none
    | some j => followN store k j

/-- `followN` applied to the final store of a run. -/
def resFollow (r : Option HistoryState) (k i : Nat) : Option Nat :=
  match r with
  | some st => followN st.store k i
  | none => none

/-! ## Rust strings for the parser (`types.rs`, `parsing.rs`)

A `&str` is a list of Unicode scalar values; byte indexing (as used by
`SHA1::parse` and `parse_change_code`) must respect UTF-8 char boundaries,
so slicing is partial: `none` models the char-boundary panic. -/

/-- A Rust string, as its characters. -/
abbrev RStr : Type := List Char

/-- UTF-8 encoded size of one char. -/
def csize (c : Char) : Nat :=
  if c.toNat < 0x80 then 1
  else if c.toNat < 0x800 then 2
  else if c.toNat < 0x10000 then 3
  else 4

/-- `str::len`, the UTF-8 byte length. -/
def byteLen : RStr → Nat
  | [] => 0
  | c :: cs => csize c + byteLen cs

/-- Take the chars occupying the first `n` bytes; `none` if `n` overruns the
string or falls inside a char. -/
def takeBytes : RStr → Nat → Option RStr
  | _, 0 => some []
  | [], _ + 1 => none
  | c :: cs, n + 1 =>
    if csize c ≤ n + 1 then
      match takeBytes cs (n + 1 - csize c) with
      | none => none
      | some r => some (c :: r)
    else none

/-- Drop the chars occupying the first `n` bytes; `none` on overrun or
mid-char index. -/
def dropBytes : RStr → Nat → Option RStr
  | s, 0 => some s
  | [], _ + 1 => none
  | c :: cs, n + 1 =>
    if csize c ≤ n + 1 then dropBytes cs (n + 1 - csize c) else none

/-- `&s[a..b]`: `none` models the slice panic (bad order, overrun, or a
non-char-boundary index). -/
def sliceBytes (s : RStr) (a b : Nat) : Option RStr :=
  if a ≤ b then
    match dropBytes s a with
    | none => none
    | some t => takeBytes t (b - a)
  else none

/-- `char::to_digit(16)`. -/
def toDigit16 (c : Char) : Option Nat :=
  if '0' ≤ c ∧ c ≤ '9' then some (c.toNat - 48)
  else if 'a' ≤ c ∧ c ≤ 'f' then some (c.toNat - 87)
  else if 'A' ≤ c ∧ c ≤ 'F' then some (c.toNat - 55)
  else none

/-- `char::to_digit(10)`. -/
def toDigit10 (c : Char) : Option Nat :=
  if '0' ≤ c ∧ c ≤ '9' then some (c.toNat - 48) else none

/-- The digit loop of `u8::from_str_radix` for a non-negative parse:
checked multiply-accumulate bounded by `u8::MAX`. -/
def posDigits (radix : Nat) (digit : Char → Option Nat) : RStr → Nat → Option Nat
  | [], acc => some acc
  | c :: cs, acc =>
    match digit c with
    | none => none
    | some d =>
      if acc * radix + d ≤ 255 then posDigits radix digit cs (acc * radix + d)
      else none

/-- The digit loop of `u8::from_str_radix` after a `-` sign: the checked
subtraction fails as soon as any non-zero digit appears. -/
def negDigits (radix : Nat) (digit : Char → Option Nat) : RStr → Nat → Option Nat
  | [], acc => some acc
  | c :: cs, acc =>
    match digit c with
    | none => none
    | some d =>
      if acc * radix ≤ 255 ∧ d ≤ acc * radix then negDigits radix digit cs (acc * radix - d)
      else none

/-- `u8::from_str_radix(s, 16)`: optional sign, then hex digits; empty digit
strings and overflow are errors. -/
def fromStrRadix16U8 (s : RStr) : Option Nat :=
  match s with
  | [] => none
  | c :: rest =>
    if c = '+' then (if rest = [] then none else posDigits 16 toDigit16 rest 0)
    else if c = '-' then (if rest = [] then none else negDigits 16 toDigit16 rest 0)
    else posDigits 16 toDigit16 s 0

/-- `s.parse::<u8>()`, i.e. `u8::from_str_radix(s, 10)`. -/
def fromStrRadix10U8 (s : RStr) : Option Nat :=
  match s with
  | [] => none
  | c :: rest =>
    if c = '+' then (if rest = [] then none else posDigits 10 toDigit10 rest 0)
    else if c = '-' then (if rest = [] then none else negDigits 10 toDigit10 rest 0)
    else posDigits 10 toDigit10 s 0

/-- Result of `SHA1::parse` (shared layout of `types.rs` and `parsing.rs`,
whose parse functions are textually identical up to the error payloads):
`errLength` is `IncorrectLength`, `errHex` is `InvalidHexadecimal`, and
`panicked` is the byte-slice panic on a non-char-boundary index. -/
inductive SHA1Outcome where
  | panicked
  | errLength
  | errHex
  | ok (bytes : List Nat)
deriving DecidableEq, Repr

/-- The `for i in 0..20` loop of `SHA1::parse`: slice bytes `2i..2i+2` of the
original string and parse them as one hex byte. -/
def sha1Loop (s : RStr) : Nat → Nat → SHA1Outcome
  | _, 0 => .ok []
  | i, rem + 1 =>
    match sliceBytes s (2 * i) (2 * i + 2) with
    | none => .panicked
    | some sub =>
      match fromStrRadix16U8 sub with
      | none => .errHex
      | some b =>
        match sha1Loop s (i + 1) rem with
        | .ok bs => .ok (b :: bs)
        | out => out

/-- `SHA1::parse` from `types.rs` (and, with renamed errors, `parsing.rs`). -/
def SHA1parse (s : RStr) : SHA1Outcome :=
  if byteLen s ≠ 40 then .errLength else sha1Loop s 0 20

/-- `write!(f, "{:02x}", b)` for one byte (`Nat.digitChar` is lowercase). -/
def byteHex (b : Nat) : RStr :=
  [Nat.digitChar (b / 16), Nat.digitChar (b % 16)]

/-- The `Display` impl of `SHA1`: each byte as two lowercase hex digits. -/
def sha1ToString (bs : List Nat) : RStr :=
  (bs.map byteHex).flatten

/-- `SHA1::parse(s).unwrap().to_string()`, `none` when parse does not return
`Ok` (including the panic case). -/
def parsedString (s : RStr) : Option RStr :=
  match SHA1parse s with
  | .ok bs => some (sha1ToString bs)
  | _ => none

/-- The 22 characters Rust's `to_digit(16)` accepts: the decimal digits and
the first six letters in both cases. -/
def hexChars : List Char :=
  (List.range 10).map (fun n => Char.ofNat (48 + n)) ++
    (List.range 6).map (fun n => Char.ofNat (97 + n)) ++
    (List.range 6).map (fun n => Char.ofNat (65 + n))

/-- The hex value of a digit char (0 off the hex range). -/
def hexVal (c : Char) : Nat :=
  (toDigit16 c).getD 0

/-! ## `parsing.rs`: deltas, commits, the log state machine -/

/-- `Change` from `parsing.rs`. -/
inductive PChange where
  | added
  | deleted
  | modified
  | renamed (percent_changed : Nat)
  | copied (percent_changed : Nat)
deriving DecidableEq, Repr

/-- `FileDelta` from `parsing.rs`. -/
structure PFileDelta where
  change : PChange
  path : RStr
  fromPath : RStr
deriving DecidableEq, Repr

/-- `ParsedCommit` from `parsing.rs`; `when` is the parsed Unix-seconds value
(`nsec` is always 0 in the source). -/
structure PParsedCommit where
  id : List Nat
  whenSec : Int
  deltas : List PFileDelta
deriving DecidableEq, Repr

/-- `ParsedCommit::default()`: zero hash, epoch timestamp, no deltas. -/
def defaultCommit : PParsedCommit :=
  ⟨List.replicate 20 0, 0, []⟩

/-- `s.split('\t')` on a Rust string (never merges separators; a trailing
separator yields a final empty token). -/
def splitTab : RStr → List RStr
  | [] => [[]]
  | c :: cs =>
    if c = '\t' then [] :: splitTab cs
    else
      match splitTab cs with
      | t :: ts => (c :: t) :: ts
      | [] => [[c]]

/-- `parse_change_code`: dispatch on the first char; `R`/`C` parse the rest
of the token as a percentage, asserted `≤ 100`.  `none` models the panics
(empty token, unknown code, unparseable or out-of-range percentage). -/
def parse_change_code (c : RStr) : Option PChange :=
  match c with
  | [] => none
  | ch :: rest =>
    if ch = 'A' then some .added
    else if ch = 'D' then some .deleted
    else if ch = 'M' then some .modified
    else if ch = 'T' then some .modified
    else if ch = 'R' then
      match fromStrRadix10U8 rest with
      | none => none
      | some p => if p ≤ 100 then some (.renamed p) else none
    else if ch = 'C' then
      match fromStrRadix10U8 rest with
      | none => none
      | some p => if p ≤ 100 then some (.copied p) else none
    else none

/-- `parse_delta`: tokenize on tab, read the change code, and demand exactly
three tokens for renames/copies and exactly two otherwise.  `none` models
the `assert!`/`panic!` failures. -/
def parse_delta (s : RStr) : Option PFileDelta :=
  match splitTab s with
  | [] => none
  | t0 :: rest =>
    if rest = [] then none
    else
      match parse_change_code t0 with
      | none => none
      | some c =>
        match c with
        | .renamed _ =>
          match rest with
          | [t1, t2] => some ⟨c, t2, t1⟩
          | _ => none
        | .copied _ =>
          match rest with
          | [t1, t2] => some ⟨c, t2, t1⟩
          | _ => none
        | _ =>
          match rest with
          | [t1] => some ⟨c, t1, []⟩
          | _ => none

/-- Decimal digit run for `i64` parsing. -/
def natDigits10 : RStr → Nat → Option Nat
  | [], acc => some acc
  | c :: cs, acc =>
    match toDigit10 c with
    | none => none
    | some d => natDigits10 cs (acc * 10 + d)

/-- `line.parse::<i64>()`: optional sign, decimal digits, checked against the
`i64` range. -/
def parseI64 (s : RStr) : Option Int :=
  match s with
  | [] => none
  | c :: rest =>
    if c = '+' then
      match (if rest = [] then none else natDigits10 rest 0) with
      | none => none
      | some n => if n ≤ 2 ^ 63 - 1 then some (n : Int) else none
    else if c = '-' then
      match (if rest = [] then none else natDigits10 rest 0) with
      | none => none
      | some n => if n ≤ 2 ^ 63 then some (-(n : Int)) else none
    else
      match natDigits10 s 0 with
      | none => none
      | some n => if n ≤ 2 ^ 63 - 1 then some (n : Int) else none

/-- The parser's state machine states. -/
inductive ParseState where
  | hash
  | timestamp
  | changes
deriving DecidableEq, Repr

/-- The line loop of `get_history`.  `cur` is `current_commit`, `acc` the
commits already pushed to the sink; at end of input the in-progress commit
is sent unconditionally.  `none` models the `unwrap`/`expect` panics. -/
def getHistoryLoop : List RStr → ParseState → PParsedCommit → List PParsedCommit →
    Option (List PParsedCommit)
  | [], _, cur, acc => some (acc ++ [cur])
  | line :: rest, st, cur, acc =>
    if line = [] then getHistoryLoop rest st cur acc
    else
      match st with
      | .hash =>
        match SHA1parse line with
        | .ok bytes => getHistoryLoop rest .timestamp { cur with id := bytes } acc
        | _ => none
      | .timestamp =>
        match parseI64 line with
        | some t => getHistoryLoop rest .changes { cur with whenSec := t } acc
        | none => none
      | .changes =>
        match SHA1parse line with
        | .panicked => none
        | .ok bytes => getHistoryLoop rest .timestamp ⟨bytes, 0, []⟩ (acc ++ [cur])
        | _ =>
          match parse_delta line with
          | some fd => getHistoryLoop rest .changes { cur with deltas := cur.deltas ++ [fd] } acc
          | none => none

/-- `get_history` as a pure function of the `git log` output lines: the
sequence of commits pushed to the sink, or `none` if the parser panics. -/
def get_history (lines : List RStr) : Option (List PParsedCommit) :=
  getHistoryLoop lines .hash defaultCommit []

/-! ## Properties under scrutiny -/

/-- A descent certificate for `previous` edges between distinct nodes: it
rules out every cycle except self-loops. -/
def EdgeCert (store : List HistoryNode) (d : Nat → Nat) : Prop :=
  ∀ i j, prevOf store i = some j → i ≠ j → d j < d i

/-- Following `previous` from `i` eventually reaches a node with no
`previous` or a node that is its own `previous`. -/
def reachesStop (store : List HistoryNode) (i : Nat) : Prop :=
  ∃ k j, followN store k i = some j ∧
    (prevOf store j = none ∨ prevOf store j = some j)

/-- Some delta of the list has `p` as its new (current) name. -/
def touchDs (ds : List DiffDelta) (p : String) : Prop :=
  ∃ d, d ∈ ds ∧ d.newPath = p

/-- Some commit of the stream touches `p` under that name. -/
def touches (cs : List CommitDiff) (p : String) : Prop :=
  ∃ c, c ∈ cs ∧ touchDs c.deltas p

/-- `p` is the old name of a rename/copy delta. -/
def rcOldD (d : DiffDelta) (p : String) : Prop :=
  (d.status = .renamed ∨ d.status = .copied) ∧ d.oldPath = p

/-- `p` is the old name of some rename/copy delta in the list. -/
def rcOldDs (ds : List DiffDelta) (p : String) : Prop :=
  ∃ d, d ∈ ds ∧ rcOldD d p

/-- `p` is the old name of some rename/copy delta in the stream. -/
def rcOld (cs : List CommitDiff) (p : String) : Prop :=
  ∃ c, c ∈ cs ∧ rcOldDs c.deltas p

/-- The builder invariant tying tree keys to the watched set.  `R` bounds
the names introduced as rename/copy sources so far, `T` is exactly the set
of names touched so far. -/
structure C1Inv (paths : List String) (R T : String → Prop) (st : HistoryState) : Prop where
  keysRC : ∀ k v, lookupA st.tree k = some v → k ∈ paths ∨ R k
  keysT : ∀ k v, lookupA st.tree k = some v → T k
  touchedKey : ∀ p, p ∈ paths → T p → (lookupA st.tree p).isSome = true
  lostKey : ∀ p, p ∈ paths → p ∉ st.current_paths → (lookupA st.tree p).isSome = true
  currRC : ∀ p, p ∈ st.current_paths → p ∈ paths ∨ R p
  pendKey : ∀ e, e ∈ st.pending_renames → ∀ l, l ∈ e.2 →
    (lookupA st.tree l).isSome = true

/-! ## Concrete commit streams used by the scenarios -/

/-- Rename `a`→`b` seen newest, then a change to `a`: paths = {b}. -/
def c1run : Option HistoryState :=
  gather_history ["b"] [⟨2, [⟨.renamed, "b", "a"⟩]⟩, ⟨1, [⟨.modified, "a", ""⟩]⟩]

/-- A single commit renaming `a`→`b` and `b`→`a`, then an older change to
`b`: paths = {a, b}. -/
def c2run : Option HistoryState :=
  gather_history ["a", "b"]
    [⟨2, [⟨.renamed, "b", "a"⟩, ⟨.renamed, "a", "b"⟩]⟩, ⟨1, [⟨.modified, "b", ""⟩]⟩]

/-- Scenario 4 of the spec: `C2` M `x`, `C1` D `x`, paths = {x}. -/
def c3run : Option HistoryState :=
  gather_history ["x"] [⟨2, [⟨.modified, "x", ""⟩]⟩, ⟨1, [⟨.deleted, "x", ""⟩]⟩]

/-- Modify, delete, then an older modify of the same name. -/
def c3run3 : Option HistoryState :=
  gather_history ["x"]
    [⟨3, [⟨.modified, "x", ""⟩]⟩, ⟨2, [⟨.deleted, "x", ""⟩]⟩, ⟨1, [⟨.modified, "x", ""⟩]⟩]

/-- Scenario 3 of the spec: `C3` M `copy.txt`, `C2` C80 `orig.txt`→`copy.txt`,
`C1` M `orig.txt`, paths = {copy.txt, orig.txt}. -/
def c4run : Option HistoryState :=
  gather_history ["copy.txt", "orig.txt"]
    [⟨3, [⟨.modified, "copy.txt", ""⟩]⟩, ⟨2, [⟨.copied, "copy.txt", "orig.txt"⟩]⟩,
     ⟨1, [⟨.modified, "orig.txt", ""⟩]⟩]

/-- One commit with two tracked deltas. -/
def c5run : Option HistoryState :=
  gather_history ["a", "b"] [⟨1, [⟨.modified, "a", ""⟩, ⟨.modified, "b", ""⟩]⟩]

/-- A 40-byte string of signed hex pairs: every char is non-hex or a sign,
yet each pair parses under `u8::from_str_radix`. -/
def plusZeroStr : RStr := (List.replicate 20 ['+', '0']).flatten

/-- A 40-byte string whose second char is two bytes wide, so the slice
`&s[0..2]` ends inside it. -/
def uniStr : RStr := 'a' :: 'é' :: List.replicate 37 'a'

/-! ## Lemmas on the store primitives -/

theorem setIdx_length (l : List HistoryNode) (t : Nat) (y : HistoryNode) :
    (setIdx l t y).length = l.length := by
  induction l generalizing t with
  | nil => cases t <;> rfl
  | cons x xs ih =>
    cases t with
    | zero => rfl
    | succ n => simp only [setIdx, List.length_cons, ih]

theorem setPrev_length (s : List HistoryNode) (t v : Nat) :
    (setPrev s t v).length = s.length := by
  unfold setPrev
  cases h : getIdx s t with
  | none => rfl
  | some n => simp only [setIdx_length]

theorem getIdx_lt_length {l : List HistoryNode} {i : Nat} {n : HistoryNode}
    (h : getIdx l i = some n) : i < l.length := by
  induction l generalizing i with
  | nil => cases h
  | cons x xs ih =>
    cases i with
    | zero => simp
    | succ j => exact Nat.succ_lt_succ (ih h)

theorem getIdx_oob {l : List HistoryNode} {i : Nat} (h : l.length ≤ i) :
    getIdx l i = none := by
  induction l generalizing i with
  | nil => rfl
  | cons x xs ih =>
    cases i with
    | zero => exact absurd h (by simp)
    | succ j => exact ih (Nat.le_of_succ_le_succ h)

theorem getIdx_setIdx_ne (l : List HistoryNode) (t i : Nat) (y : HistoryNode)
    (h : i ≠ t) : getIdx (setIdx l t y) i = getIdx l i := by
  induction l generalizing t i with
  | nil => rfl
  | cons x xs ih =>
    cases t with
    | zero =>
      cases i with
      | zero => exact absurd rfl h
      | succ j => rfl
    | succ n =>
      cases i with
      | zero => rfl
      | succ j => exact ih n j fun he => h (by rw [he])

theorem getIdx_setIdx_eq {l : List HistoryNode} {t : Nat} (y : HistoryNode)
    (h : t < l.length) : getIdx (setIdx l t y) t = some y := by
  induction l generalizing t with
  | nil => exact absurd h (by simp)
  | cons x xs ih =>
    cases t with
    | zero => rfl
    | succ n => exact ih (Nat.lt_of_succ_lt_succ h)

theorem getIdx_append_lt {l l2 : List HistoryNode} {i : Nat} (h : i < l.length) :
    getIdx (l ++ l2) i = getIdx l i := by
  induction l generalizing i with
  | nil => exact absurd h (by simp)
  | cons x xs ih =>
    cases i with
    | zero => rfl
    | succ j => exact ih (Nat.lt_of_succ_lt_succ h)

theorem getIdx_append_self (l : List HistoryNode) (x : HistoryNode) :
    getIdx (l ++ [x]) l.length = some x := by
  induction l with
  | nil => rfl
  | cons y ys ih => exact ih

theorem prevOf_setPrev_ne (s : List HistoryNode) (t v i : Nat) (h : i ≠ t) :
    prevOf (setPrev s t v) i = prevOf s i := by
  unfold prevOf setPrev
  cases hg : getIdx s t with
  | none => rfl
  | some n => rw [getIdx_setIdx_ne _ _ _ _ h]

theorem prevOf_setPrev_self {s : List HistoryNode} {t : Nat} (v : Nat)
    {n : HistoryNode} (hg : getIdx s t = some n) :
    prevOf (setPrev s t v) t = some v := by
  unfold prevOf setPrev
  rw [hg, getIdx_setIdx_eq _ (getIdx_lt_length hg)]

theorem prevOf_append_lt {s : List HistoryNode} (l2 : List HistoryNode) {i : Nat}
    (h : i < s.length) : prevOf (s ++ l2) i = prevOf s i := by
  unfold prevOf
  rw [getIdx_append_lt h]

theorem prevOf_append_self (s : List HistoryNode) (x : HistoryNode) :
    prevOf (s ++ [x]) s.length = x.previous := by
  unfold prevOf
  rw [getIdx_append_self]

theorem prevOf_oob {s : List HistoryNode} {i : Nat} (h : s.length ≤ i) :
    prevOf s i = none := by
  unfold prevOf
  rw [getIdx_oob h]

theorem tail_of_prev_none {store : List HistoryNode} :
    ∀ {fuel i t : Nat}, tail_of store fuel i = some t → prevOf store t = none := by
  intro fuel
  induction fuel with
  | zero => intro i t h; cases h
  | succ f ih =>
    intro i t h
    unfold tail_of at h
    cases hp : prevOf store i with
    | none => rw [hp] at h; injection h with h; rw [← h]; exact hp
    | some j => rw [hp] at h; exact ih h

/-! ## Tree-lookup lemmas -/

theorem lookupA_cons_of_ne {α : Type} {t : List (String × α)} {k' k : String}
    (v' : α) (h : k' ≠ k) : lookupA ((k', v') :: t) k = lookupA t k := by
  simp only [lookupA, if_neg h]

theorem lookupA_cons_self {α : Type} (t : List (String × α)) (k : String) (v : α) :
    lookupA ((k, v) :: t) k = some v := by
  simp [lookupA]

/-! ## Facts about each builder operation -/

theorem append_node_facts {st : HistoryState} {node : Nat} {key : String}
    {st' : HistoryState} (h : append_node st node key = some st') :
    (∀ k v, lookupA st.tree k = some v → lookupA st'.tree k = some v) ∧
    (∀ k v, lookupA st'.tree k = some v →
      lookupA st.tree k = some v ∨ (k = key ∧ v = node ∧ lookupA st.tree key = none)) ∧
    (lookupA st'.tree key).isSome = true ∧
    ((lookupA st.tree key).isSome = true → st'.tree = st.tree) ∧
    st'.pending_renames = st.pending_renames ∧
    st'.current_paths = st.current_paths ∧
    st'.visitLog = st.visitLog ∧
    st'.store.length = st.store.length := by
  unfold append_node at h
  split at h
  · rename_i head hk
    split at h
    · cases h
    · rename_i tail ht
      split at h
      · injection h with h
        subst h
        refine ⟨fun k v hv => hv, fun k v hv => Or.inl hv, ?_, fun _ => rfl,
          rfl, rfl, rfl, setPrev_length _ _ _⟩
        rw [hk]; rfl
      · cases h
  · rename_i hk
    injection h with h
    subst h
    refine ⟨?_, ?_, ?_, ?_, rfl, rfl, rfl, rfl⟩
    · intro k v hv
      by_cases he : key = k
      · subst he; rw [hk] at hv; cases hv
      · rw [lookupA_cons_of_ne _ he]; exact hv
    · intro k v hv
      by_cases he : key = k
      · subst he
        rw [lookupA_cons_self] at hv
        injection hv with hv
        exact Or.inr ⟨rfl, hv.symm, hk⟩
      · rw [lookupA_cons_of_ne _ he] at hv; exact Or.inl hv
    · rw [lookupA_cons_self]; rfl
    · intro hs; rw [hk] at hs; cases hs

theorem linkLoop_facts :
    ∀ (ls : List String) (st : HistoryState) (tail : Nat) (st' : HistoryState),
    linkLoop st tail ls = some st' →
    (∀ k v, lookupA st.tree k = some v → lookupA st'.tree k = some v) ∧
    (∀ k v, lookupA st'.tree k = some v → lookupA st.tree k = some v ∨ (k ∈ ls ∧ v = tail)) ∧
    ((∀ l, l ∈ ls → (lookupA st.tree l).isSome = true) → st'.tree = st.tree) ∧
    st'.pending_renames = st.pending_renames ∧
    st'.current_paths = st.current_paths ∧
    st'.visitLog = st.visitLog ∧
    st'.store.length = st.store.length := by
  intro ls
  induction ls with
  | nil =>
    intro st tail st' h
    injection h with h
    subst h
    exact ⟨fun k v hv => hv, fun k v hv => Or.inl hv, fun _ => rfl, rfl, rfl, rfl, rfl⟩
  | cons l ls ih =>
    intro st tail st' h
    unfold linkLoop at h
    split at h
    · cases h
    · rename_i st1 ha
      obtain ⟨m1, b1, s1, e1, p1, c1, v1, n1⟩ := append_node_facts ha
      obtain ⟨m2, b2, e2, p2, c2, v2, n2⟩ := ih st1 tail st' h
      refine ⟨fun k v hv => m2 k v (m1 k v hv), ?_, ?_, p2.trans p1, c2.trans c1,
        v2.trans v1, n2.trans n1⟩
      · intro k v hv
        rcases b2 k v hv with hv1 | ⟨hm, hvv⟩
        · rcases b1 k v hv1 with hv0 | ⟨hkl, hvt, _⟩
          · exact Or.inl hv0
          · exact Or.inr ⟨by rw [hkl]; exact List.mem_cons_self _ _, hvt⟩
        · exact Or.inr ⟨List.mem_cons_of_mem _ hm, hvv⟩
      · intro hall
        have hl : (lookupA st.tree l).isSome = true := hall l (List.mem_cons_self _ _)
        have ht1 : st1.tree = st.tree := e1 hl
        have : st'.tree = st1.tree := by
          refine e2 ?_
          intro l2 hl2
          rw [ht1]
          exact hall l2 (List.mem_cons_of_mem _ hl2)
        rw [this, ht1]

theorem link_copies_facts {st : HistoryState} {key : String} {st' : HistoryState}
    (h : link_copies st key = some st') :
    (∀ k v, lookupA st.tree k = some v → lookupA st'.tree k = some v) ∧
    st'.current_paths = st.current_paths ∧
    st'.visitLog = st.visitLog ∧
    st'.store.length = st.store.length := by
  unfold link_copies at h
  split at h
  · injection h with h
    subst h
    exact ⟨fun k v hv => hv, rfl, rfl, rfl⟩
  · rename_i to_link pending' hrem
    split at h
    · cases h
    · rename_i head hh
      split at h
      · cases h
      · rename_i tail ht
        obtain ⟨m, _, _, _, c, v, n⟩ := linkLoop_facts to_link _ tail st' h
        exact ⟨fun k w hw => m k w hw, c, v, n⟩

theorem afterNode_facts {st2 : HistoryState} {delta : DiffDelta} {st' : HistoryState}
    (h : afterNode st2 delta = some st') :
    (∀ k v, lookupA st2.tree k = some v → lookupA st'.tree k = some v) ∧
    st'.visitLog = st2.visitLog ∧
    st'.store.length = st2.store.length := by
  unfold afterNode at h
  split at h
  · obtain ⟨m, _, v, n⟩ := link_copies_facts h
    exact ⟨m, v, n⟩
  · split at h
    · cases h
    · rename_i st3 hl
      injection h with h
      subst h
      obtain ⟨m, _, v, n⟩ := link_copies_facts hl
      exact ⟨fun k w hw => m k w hw, v, n⟩
  · split at h
    · cases h
    · rename_i st3 hl
      injection h with h
      subst h
      obtain ⟨m, _, v, n⟩ := link_copies_facts hl
      exact ⟨fun k w hw => m k w hw, v, n⟩
  · split at h
    · cases h
    · rename_i st3 hl
      injection h with h
      subst h
      obtain ⟨m, _, v, n⟩ := link_copies_facts hl
      exact ⟨fun k w hw => m k w hw, v, n⟩
  · injection h with h
    subst h
    exact ⟨fun k v hv => hv, rfl, rfl⟩

theorem appendGated_facts {st1 : HistoryState} {n : Nat} {delta : DiffDelta}
    {st' : HistoryState} (h : appendGated st1 n delta = some st') :
    (∀ k v, lookupA st1.tree k = some v → lookupA st'.tree k = some v) ∧
    st'.visitLog = st1.visitLog ∧
    st'.store.length = st1.store.length := by
  unfold appendGated at h
  split at h
  · cases h
  · rename_i st2 ha
    obtain ⟨m1, _, _, _, _, _, v1, n1⟩ := append_node_facts ha
    obtain ⟨m2, v2, n2⟩ := afterNode_facts h
    exact ⟨fun k v hv => m2 k v (m1 k v hv), v2.trans v1, n2.trans n1⟩

theorem appendDelta_facts {st : HistoryState} {cid : Nat} {delta : DiffDelta}
    {st' : HistoryState} (h : appendDelta st cid delta = some st') :
    (∀ k v, lookupA st.tree k = some v → lookupA st'.tree k = some v) ∧
    ((delta.newPath ∉ st.current_paths ∧ st' = st) ∨
     (delta.newPath ∈ st.current_paths ∧ st'.visitLog = st.visitLog ++ [cid] ∧
      st'.store.length = st.store.length + 1)) := by
  unfold appendDelta at h
  by_cases hmem : delta.newPath ∈ st.current_paths
  · rw [if_pos hmem] at h
    obtain ⟨m, v, n⟩ := appendGated_facts h
    refine ⟨fun k w hw => m k w hw, Or.inr ⟨hmem, ?_, ?_⟩⟩
    · rw [v]; rfl
    · rw [n]; simp [new_node]
  · rw [if_neg hmem] at h
    injection h with h
    subst h
    exact ⟨fun k v hv => hv, Or.inl ⟨hmem, rfl⟩⟩

theorem appendDeltas_tree_mono :
    ∀ (ds : List DiffDelta) (st : HistoryState) (cid : Nat) (st' : HistoryState),
    appendDeltas st cid ds = some st' →
    ∀ k v, lookupA st.tree k = some v → lookupA st'.tree k = some v := by
  intro ds
  induction ds with
  | nil =>
    intro st cid st' h k v hv
    injection h with h
    subst h
    exact hv
  | cons d ds ih =>
    intro st cid st' h k v hv
    unfold appendDeltas at h
    split at h
    · cases h
    · rename_i st1 hd
      exact ih st1 cid st' h k v ((appendDelta_facts hd).1 k v hv)

theorem gatherLoop_tree_mono :
    ∀ (cs : List CommitDiff) (st st' : HistoryState),
    gatherLoop st cs = some st' →
    ∀ k v, lookupA st.tree k = some v → lookupA st'.tree k = some v := by
  intro cs
  induction cs with
  | nil =>
    intro st st' h k v hv
    injection h with h
    subst h
    exact hv
  | cons c cs ih =>
    intro st st' h k v hv
    unfold gatherLoop at h
    split at h
    · cases h
    · rename_i st1 hc
      exact ih st1 st' h k v (appendDeltas_tree_mono c.deltas st c.cid st1 hc k v hv)

/-! ## Claim theorems (first group) -/

/-- C10: once a key is inserted into the builder's history tree, its binding
is never replaced or removed for the remainder of the walk — later nodes
only mutate `previous` fields inside the store — so the head returned to the
caller is identically the node installed at the key's first insertion. -/
theorem c10_head_stable (st : HistoryState) (cs : List CommitDiff)
    (st' : HistoryState) (k : String) (v : Nat)
    (h : gatherLoop st cs = some st') (hk : lookupA st.tree k = some v) :
    lookupA st'.tree k = some v :=
  gatherLoop_tree_mono cs st st' h k v hk

/-- Witness for C10 at a concrete mid-walk state and one further commit. -/
theorem c10_head_stable_witness :
    lookupA ((gatherLoop ⟨[⟨5, .modified, none⟩], [("x", 0)], [], ["x"], [5]⟩
      [⟨1, [⟨.modified, "x", ""⟩]⟩]).getD default).tree "x" = some 0 :=
  c10_head_stable ⟨[⟨5, .modified, none⟩], [("x", 0)], [], ["x"], [5]⟩
    [⟨1, [⟨.modified, "x", ""⟩]⟩] _ "x" 0 (by decide) (by decide)

/-- C1 fails on the code: with `paths = {b}` and the stream
`C2: R a→b`, `C1: M a`, the final tree also has the key `a`, which is not a
member of the caller-supplied path set. -/
theorem c1_keys_counterexample :
    resKeys c1run = some ["a", "b"] ∧ ("a" : String) ∉ (["b"] : List String) := by
  decide

/-- C2 fails on the code: with `paths = {a, b}`, a commit holding the
mutually-renaming deltas `R a→b` and `R b→a` followed by an older `M b`
produces a self-loop — node 2 is its own `previous` — so the chain from
`tree[b]` (node 0) visits node 2 at step 2 and again at step 3. -/
theorem c2_acyclicity_counterexample :
    resLookup c2run "b" = some 0 ∧
    resFollow c2run 2 0 = some 2 ∧
    resFollow c2run 3 0 = some 2 ∧
    resNode c2run 2 = some ⟨1, .modified, some 2⟩ := by
  decide

/-- C3 fails on the code: a `Deleted` delta does not stop tracking, so for
`C3: M x`, `C2: D x`, `C1: M x` the delete node (index 1) gets the older
`C1` node linked as its `previous`. -/
theorem c3_deleted_counterexample :
    resNode c3run3 1 = some ⟨2, .deleted, some 2⟩ ∧
    resNode c3run3 2 = some ⟨1, .modified, none⟩ ∧
    resLookup c3run3 "x" = some 0 := by
  decide

/-- C4: the copy scenario `C3: M copy.txt`, `C2: C80 orig.txt→copy.txt`,
`C1: M orig.txt` with `paths = {copy.txt, orig.txt}` yields
`tree[copy.txt]` chaining C3 (node 0) → C2 (node 1) → C1 (node 2) and
`tree[orig.txt]` = node 2: the C1 node is shared by identity, not copied. -/
theorem c4_copy_fork :
    resLookup c4run "copy.txt" = some 0 ∧
    resLookup c4run "orig.txt" = some 2 ∧
    resNode c4run 0 = some ⟨3, .modified, some 1⟩ ∧
    resNode c4run 1 = some ⟨2, .copied, some 2⟩ ∧
    resNode c4run 2 = some ⟨1, .modified, none⟩ := by
  decide

/-- C5 fails on the code: the visitor runs once per gate-passing delta, not
once per commit — one commit with two tracked deltas logs two calls. -/
theorem c5_visit_counterexample :
    resLog c5run = some [1, 1] := by
  decide

/-- C6 fails on the code: `get_history` flushes the in-progress commit
unconditionally at end of input, so an empty stream emits one default
commit and a stream ending right after a hash line emits that incomplete
commit. -/
theorem c6_flush_counterexample :
    get_history [] = some [defaultCommit] ∧
    get_history [List.replicate 40 'a'] = some [⟨List.replicate 20 170, 0, []⟩] := by
  decide

/-- C7: `SHA1::parse` evaluated at two length-40 inputs the claim covers:
a string of signed pairs `+0…` (every char non-hex) is accepted as `Ok`,
and a string whose second char is multi-byte panics on the byte slice —
contradicting "`InvalidHexadecimal` for every non-hex length-40 input and
no other failure mode". -/
theorem c7_sha1_eval :
    SHA1parse plusZeroStr = .ok (List.replicate 20 0) ∧
    SHA1parse uniStr = .panicked ∧
    byteLen plusZeroStr = 40 ∧
    byteLen uniStr = 40 := by
  decide

/-- C3 amended: a `Deleted` delta creates a node appended at the tail of the
path's chain and registers no waiter — `pending_renames` and
`current_paths` are untouched — but because the path stays tracked, an
older change to the same name is linked as the delete node's `previous`
(see the counterexample).  For the spec's two-commit stream, `tree[x]` is
the C2 node and its `previous` is the C1 delete node, whose own `previous`
is `None` — not `previous = None` on the C2 node as the spec expected. -/
theorem c3_deleted_amended :
    (∀ (st : HistoryState) (cid : Nat) (d : DiffDelta) (st' : HistoryState),
      d.status = .deleted → appendDelta st cid d = some st' →
      st'.pending_renames = st.pending_renames ∧ st'.current_paths = st.current_paths) ∧
    resLookup c3run "x" = some 0 ∧
    resNode c3run 0 = some ⟨2, .modified, some 1⟩ ∧
    resNode c3run 1 = some ⟨1, .deleted, none⟩ := by
  refine ⟨?_, by decide, by decide, by decide⟩
  intro st cid d st' hdel h
  unfold appendDelta at h
  by_cases hmem : d.newPath ∈ st.current_paths
  · rw [if_pos hmem] at h
    unfold appendGated at h
    split at h
    · cases h
    · rename_i st2 ha
      obtain ⟨_, _, _, _, p2, c2, _, _⟩ := append_node_facts ha
      unfold afterNode at h
      rw [hdel] at h
      injection h with h
      subst h
      exact ⟨p2, c2⟩
  · rw [if_neg hmem] at h
    injection h with h
    subst h
    exact ⟨rfl, rfl⟩

/-- Witness for C3's amended statement at a concrete deleted delta. -/
theorem c3_deleted_amended_witness :
    ((appendDelta ⟨[], [], [("p", ["q"])], ["x"], []⟩ 7 ⟨.deleted, "x", ""⟩).getD
        default).pending_renames = [("p", ["q"])] ∧
    ((appendDelta ⟨[], [], [("p", ["q"])], ["x"], []⟩ 7 ⟨.deleted, "x", ""⟩).getD
        default).current_paths = ["x"] :=
  c3_deleted_amended.1 ⟨[], [], [("p", ["q"])], ["x"], []⟩ 7 ⟨.deleted, "x", ""⟩ _
    rfl (by decide)

/-! ## Visitor-count lemmas (C5) -/

theorem appendDeltas_log :
    ∀ (ds : List DiffDelta) (st : HistoryState) (cid : Nat) (st' : HistoryState),
    appendDeltas st cid ds = some st' →
    st.store.length ≤ st'.store.length ∧
    st'.visitLog = st.visitLog ++
      List.replicate (st'.store.length - st.store.length) cid := by
  intro ds
  induction ds with
  | nil =>
    intro st cid st' h
    injection h with h
    subst h
    simp
  | cons d ds ih =>
    intro st cid st' h
    unfold appendDeltas at h
    split at h
    · cases h
    · rename_i st1 hd
      obtain ⟨hle, hlog⟩ := ih st1 cid st' h
      rcases (appendDelta_facts hd).2 with ⟨_, heq⟩ | ⟨_, hv1, hn1⟩
      · subst heq
        exact ⟨hle, hlog⟩
      · refine ⟨by omega, ?_⟩
        rw [hlog, hv1]
        have harith : st'.store.length - st.store.length =
            (st'.store.length - st1.store.length) + 1 := by omega
        rw [harith]
        rw [List.replicate_succ, List.append_assoc]
        rfl

theorem appendDeltas_all_skipped :
    ∀ (ds : List DiffDelta) (st : HistoryState) (cid : Nat) (st' : HistoryState),
    (∀ d, d ∈ ds → d.newPath ∉ st.current_paths) →
    appendDeltas st cid ds = some st' → st' = st := by
  intro ds
  induction ds with
  | nil =>
    intro st cid st' _ h
    injection h with h
    exact h.symm
  | cons d ds ih =>
    intro st cid st' hall h
    unfold appendDeltas at h
    split at h
    · cases h
    · rename_i st1 hd
      rcases (appendDelta_facts hd).2 with ⟨_, heq⟩ | ⟨hmem, _, _⟩
      · subst heq
        exact ih st1 cid st' (fun e he => hall e (List.mem_cons_of_mem _ he)) h
      · exact absurd hmem (hall d (List.mem_cons_self _ _))

/-- C5 amended: the visitor is invoked exactly once per node created — i.e.
once per delta that passes the gate, so possibly several times for one
commit — and a commit none of whose deltas' new paths are currently
tracked leaves the state (and thus the log) wholly unchanged. -/
theorem c5_visit_amended (st : HistoryState) (c : CommitDiff) (st' : HistoryState)
    (h : append_diff st c = some st') :
    st'.visitLog = st.visitLog ++
      List.replicate (st'.store.length - st.store.length) c.cid ∧
    ((∀ d, d ∈ c.deltas → d.newPath ∉ st.current_paths) → st' = st) := by
  unfold append_diff at h
  exact ⟨(appendDeltas_log c.deltas st c.cid st' h).2,
    fun hall => appendDeltas_all_skipped c.deltas st c.cid st' hall h⟩

/-- Witness for C5's amended statement on the two-delta commit. -/
theorem c5_visit_amended_witness :
    ((append_diff (initState ["a", "b"])
        ⟨1, [⟨.modified, "a", ""⟩, ⟨.modified, "b", ""⟩]⟩).getD default).visitLog =
      (initState ["a", "b"]).visitLog ++
        List.replicate
          (((append_diff (initState ["a", "b"])
              ⟨1, [⟨.modified, "a", ""⟩, ⟨.modified, "b", ""⟩]⟩).getD default).store.length -
            (initState ["a", "b"]).store.length) 1 :=
  (c5_visit_amended (initState ["a", "b"])
    ⟨1, [⟨.modified, "a", ""⟩, ⟨.modified, "b", ""⟩]⟩ _ (by decide)).1

/-! ## Parser end-of-input lemma (C6) -/

theorem getHistoryLoop_ne_nil :
    ∀ (lines : List RStr) (st : ParseState) (cur : PParsedCommit)
      (acc cs : List PParsedCommit),
    getHistoryLoop lines st cur acc = some cs → cs ≠ [] := by
  intro lines
  induction lines with
  | nil =>
    intro st cur acc cs h
    injection h with h
    subst h
    simp
  | cons line rest ih =>
    intro st cur acc cs h
    unfold getHistoryLoop at h
    by_cases hl : line = []
    · rw [if_pos hl] at h
      exact ih _ _ _ _ h
    · rw [if_neg hl] at h
      split at h <;>
        first
          | exact ih _ _ _ _ h
          | exact Option.noConfusion h
          | (split at h <;>
              first
                | exact ih _ _ _ _ h
                | exact Option.noConfusion h
                | (split at h <;>
                    first
                      | exact ih _ _ _ _ h
                      | exact Option.noConfusion h))

/-- C6 amended: at end of input the parser flushes the in-progress commit
unconditionally, complete or not: every successful parse emits at least one
commit, the empty stream emits exactly the default `ParsedCommit`, and a
stream ending right after a hash line emits that hash with timestamp 0 and
no deltas. -/
theorem c6_flush_amended :
    (∀ (lines : List RStr) (cs : List PParsedCommit),
      get_history lines = some cs → cs ≠ []) ∧
    get_history [] = some [defaultCommit] ∧
    get_history [List.replicate 40 'a'] = some [⟨List.replicate 20 170, 0, []⟩] := by
  refine ⟨?_, by decide, by decide⟩
  intro lines cs h
  exact getHistoryLoop_ne_nil lines .hash defaultCommit [] cs h

/-- Witness for C6's amended statement on the empty stream. -/
theorem c6_flush_amended_witness : ([defaultCommit] : List PParsedCommit) ≠ [] :=
  c6_flush_amended.1 [] [defaultCommit] (by decide)

/-! ## Self-loop certificate lemmas (C2)

Every `previous` write the builder performs targets a node whose `previous`
is `None` (checked by the assert) and stores a node that is a chain tail
itself — so a descent certificate on distinct-node edges survives every
step, ruling out all cycles except self-loops. -/

theorem cert_setPrev {store : List HistoryNode} {d : Nat → Nat} {t u : Nat}
    (hc : EdgeCert store d) (ht : prevOf store t = none)
    (hu : prevOf store u = none ∨ prevOf store u = some u) :
    EdgeCert (setPrev store t u) (fun i => if i = u then 0 else d i + 1) := by
  intro i j hp hij
  by_cases hit : i = t
  · have hpt : prevOf (setPrev store t u) t = some j := hit ▸ hp
    cases hg : getIdx store t with
    | none =>
      exfalso
      unfold setPrev at hpt
      rw [hg] at hpt
      rw [ht] at hpt
      cases hpt
    | some n =>
      rw [prevOf_setPrev_self u hg] at hpt
      injection hpt with hj
      subst hj
      have hiu : i ≠ u := hit ▸ hij
      show (if u = u then (0 : Nat) else d u + 1) < (if i = u then (0 : Nat) else d i + 1)
      rw [if_pos rfl, if_neg hiu]
      omega
  · rw [prevOf_setPrev_ne _ _ _ _ hit] at hp
    have hiu : i ≠ u := by
      intro he
      subst he
      rcases hu with h0 | hs
      · rw [hp] at h0; cases h0
      · rw [hp] at hs
        injection hs with hs
        exact hij hs.symm
    have hd := hc i j hp hij
    show (if j = u then (0 : Nat) else d j + 1) < (if i = u then (0 : Nat) else d i + 1)
    rw [if_neg hiu]
    by_cases hju : j = u
    · rw [if_pos hju]; omega
    · rw [if_neg hju]; omega

theorem cert_append {store : List HistoryNode} {d : Nat → Nat}
    (hc : EdgeCert store d) (data : Nat) (ct : DeltaKind) :
    EdgeCert (store ++ [⟨data, ct, none⟩]) d := by
  intro i j hp hij
  rcases Nat.lt_trichotomy i store.length with hlt | heq | hgt
  · rw [prevOf_append_lt _ hlt] at hp
    exact hc i j hp hij
  · rw [heq, prevOf_append_self] at hp
    cases hp
  · have hge : (store ++ [(⟨data, ct, none⟩ : HistoryNode)]).length ≤ i := by
      simp only [List.length_append, List.length_cons, List.length_nil]
      omega
    rw [prevOf_oob hge] at hp
    cases hp

theorem append_node_cert {st : HistoryState} {node : Nat} {key : String}
    {st' : HistoryState} (h : append_node st node key = some st')
    (hq : ∃ d, EdgeCert st.store d)
    (hu : prevOf st.store node = none ∨ prevOf st.store node = some node) :
    (∃ d', EdgeCert st'.store d') ∧
    (prevOf st'.store node = none ∨ prevOf st'.store node = some node) := by
  obtain ⟨d, hc⟩ := hq
  unfold append_node at h
  split at h
  · rename_i head hk
    split at h
    · cases h
    · rename_i tail ht
      split at h
      · rename_i hp
        injection h with h
        subst h
        refine ⟨⟨_, cert_setPrev hc hp hu⟩, ?_⟩
        by_cases hnt : node = tail
        · subst hnt
          cases hg : getIdx st.store node with
          | none =>
            left
            show prevOf (setPrev st.store node node) node = none
            unfold setPrev
            rw [hg]
            exact hp
          | some n => exact Or.inr (prevOf_setPrev_self node hg)
        · rw [show ({ st with store := setPrev st.store tail node } :
              HistoryState).store = setPrev st.store tail node from rfl,
            prevOf_setPrev_ne _ _ _ _ hnt]
          exact hu
      · cases h
  · injection h with h
    subst h
    exact ⟨⟨d, hc⟩, hu⟩

theorem linkLoop_cert :
    ∀ (ls : List String) (st : HistoryState) (tail : Nat) (st' : HistoryState),
    linkLoop st tail ls = some st' →
    (∃ d, EdgeCert st.store d) →
    (prevOf st.store tail = none ∨ prevOf st.store tail = some tail) →
    ∃ d', EdgeCert st'.store d' := by
  intro ls
  induction ls with
  | nil =>
    intro st tail st' h hq _
    injection h with h
    subst h
    exact hq
  | cons l ls ih =>
    intro st tail st' h hq hu
    unfold linkLoop at h
    split at h
    · cases h
    · rename_i st1 ha
      obtain ⟨hq1, hu1⟩ := append_node_cert ha hq hu
      exact ih st1 tail st' h hq1 hu1

theorem link_copies_cert {st : HistoryState} {key : String} {st' : HistoryState}
    (h : link_copies st key = some st') (hq : ∃ d, EdgeCert st.store d) :
    ∃ d', EdgeCert st'.store d' := by
  unfold link_copies at h
  split at h
  · injection h with h
    subst h
    exact hq
  · rename_i to_link pending' hrem
    split at h
    · cases h
    · rename_i head hh
      split at h
      · cases h
      · rename_i tail ht
        exact linkLoop_cert to_link _ tail st' h hq (Or.inl (tail_of_prev_none ht))

theorem afterNode_cert {st2 : HistoryState} {delta : DiffDelta} {st' : HistoryState}
    (h : afterNode st2 delta = some st') (hq : ∃ d, EdgeCert st2.store d) :
    ∃ d', EdgeCert st'.store d' := by
  unfold afterNode at h
  split at h
  · exact link_copies_cert h hq
  · split at h
    · cases h
    · rename_i st3 hl
      injection h with h
      subst h
      exact show ∃ d', EdgeCert st3.store d' from link_copies_cert hl hq
  · split at h
    · cases h
    · rename_i st3 hl
      injection h with h
      subst h
      exact show ∃ d', EdgeCert st3.store d' from link_copies_cert hl hq
  · split at h
    · cases h
    · rename_i st3 hl
      injection h with h
      subst h
      exact show ∃ d', EdgeCert st3.store d' from link_copies_cert hl hq
  · injection h with h
    subst h
    exact hq

theorem appendDelta_cert {st : HistoryState} {cid : Nat} {delta : DiffDelta}
    {st' : HistoryState} (h : appendDelta st cid delta = some st')
    (hq : ∃ d, EdgeCert st.store d) : ∃ d', EdgeCert st'.store d' := by
  unfold appendDelta at h
  by_cases hmem : delta.newPath ∈ st.current_paths
  · rw [if_pos hmem] at h
    unfold appendGated at h
    split at h
    · cases h
    · rename_i st2 ha
      obtain ⟨d, hc⟩ := hq
      have hq1 : ∃ d1, EdgeCert (new_node st delta.status cid).1.store d1 :=
        ⟨d, cert_append hc cid delta.status⟩
      have hu1 : prevOf (new_node st delta.status cid).1.store
          (new_node st delta.status cid).2 = none := by
        show prevOf (st.store ++ [⟨cid, delta.status, none⟩]) st.store.length = none
        rw [prevOf_append_self]
      obtain ⟨hq2, _⟩ := append_node_cert ha hq1 (Or.inl hu1)
      exact afterNode_cert h hq2
  · rw [if_neg hmem] at h
    injection h with h
    subst h
    exact hq

theorem appendDeltas_cert :
    ∀ (ds : List DiffDelta) (st : HistoryState) (cid : Nat) (st' : HistoryState),
    appendDeltas st cid ds = some st' →
    (∃ d, EdgeCert st.store d) → ∃ d', EdgeCert st'.store d' := by
  intro ds
  induction ds with
  | nil =>
    intro st cid st' h hq
    injection h with h
    subst h
    exact hq
  | cons e ds ih =>
    intro st cid st' h hq
    unfold appendDeltas at h
    split at h
    · cases h
    · rename_i st1 hd
      exact ih st1 cid st' h (appendDelta_cert hd hq)

theorem gatherLoop_cert :
    ∀ (cs : List CommitDiff) (st st' : HistoryState),
    gatherLoop st cs = some st' →
    (∃ d, EdgeCert st.store d) → ∃ d', EdgeCert st'.store d' := by
  intro cs
  induction cs with
  | nil =>
    intro st st' h hq
    injection h with h
    subst h
    exact hq
  | cons c cs ih =>
    intro st st' h hq
    unfold gatherLoop at h
    split at h
    · cases h
    · rename_i st1 hc
      exact ih st1 st' h (appendDeltas_cert c.deltas st c.cid st1 hc hq)

theorem cert_reachesStop {store : List HistoryNode} {d : Nat → Nat}
    (hc : EdgeCert store d) : ∀ i, reachesStop store i := by
  have main : ∀ n i, d i = n → reachesStop store i := by
    intro n
    induction n using Nat.strong_induction_on with
    | _ n ih =>
      intro i hdi
      cases hp : prevOf store i with
      | none => exact ⟨0, i, rfl, Or.inl hp⟩
      | some j =>
        by_cases hij : i = j
        · exact ⟨0, i, rfl, Or.inr (by rw [hp, hij])⟩
        · have hlt := hc i j hp hij
          obtain ⟨k, j', h1, h2⟩ := ih (d j) (by omega) j rfl
          refine ⟨k + 1, j', ?_, h2⟩
          simp only [followN]
          rw [hp]
          exact h1
  intro i
  exact main (d i) i rfl

/-- C2 amended: chains are not fully acyclic (see the counterexample), but
every cycle is a self-loop: from any node of the final store, following
`previous` reaches, in finitely many steps, either a node with no
`previous` or a node whose `previous` is itself.  Longer cycles can never
form because every `previous` write targets an asserted-`None` field and
stores a node that is itself a chain tail at that moment. -/
theorem c2_self_loop_amended (paths : List String) (cs : List CommitDiff)
    (st : HistoryState) (h : gather_history paths cs = some st) (i : Nat) :
    reachesStop st.store i := by
  have hinit : ∃ d, EdgeCert (initState paths).store d := by
    refine ⟨fun _ => 0, ?_⟩
    intro a b hp _
    cases hg : getIdx (initState paths).store a with
    | none => unfold prevOf at hp; rw [hg] at hp; cases hp
    | some n => rw [getIdx_oob (by simp [initState])] at hg; cases hg
  obtain ⟨d, hcert⟩ := gatherLoop_cert cs (initState paths) st h hinit
  exact cert_reachesStop hcert i

/-- Witness for C2's amended statement on a concrete (empty) run. -/
theorem c2_self_loop_amended_witness :
    reachesStop ((gather_history ["a"] []).getD default).store 0 :=
  c2_self_loop_amended ["a"] [] _ (by decide) 0

/-! ## Delta-line validation lemmas (C9) -/

theorem parse_delta_chars :
    ∀ (s : RStr) (fd : PFileDelta), parse_delta s = some fd →
    ∃ t0 rest, splitTab s = t0 :: rest ∧ parse_change_code t0 = some fd.change ∧
      ((∃ p, fd.change = .renamed p ∨ fd.change = .copied p) → rest.length = 2) ∧
      ((∀ p, ¬(fd.change = .renamed p ∨ fd.change = .copied p)) → rest.length = 1) := by
  intro s fd h
  unfold parse_delta at h
  split at h
  · cases h
  · rename_i t0 rest hts
    by_cases hr : rest = []
    · rw [if_pos hr] at h; cases h
    · rw [if_neg hr] at h
      split at h
      · cases h
      · rename_i c hcc
        split at h
        · -- renamed
          rename_i p
          split at h
          · rename_i t1 t2
            injection h with h
            subst h
            exact ⟨t0, [t1, t2], hts, hcc, fun _ => rfl,
              fun hall => absurd (Or.inl rfl) (hall p)⟩
          · cases h
        · -- copied
          rename_i p
          split at h
          · rename_i t1 t2
            injection h with h
            subst h
            exact ⟨t0, [t1, t2], hts, hcc, fun _ => rfl,
              fun hall => absurd (Or.inr rfl) (hall p)⟩
          · cases h
        · -- added / deleted / modified (the `_` arm)
          split at h
          · rename_i t1
            injection h with h
            subst h
            refine ⟨t0, [t1], hts, hcc, ?_, fun _ => rfl⟩
            rintro ⟨p, hp | hp⟩ <;> simp_all
          · cases h

theorem parse_change_code_percent :
    ∀ (t0 : RStr) (c : PChange), parse_change_code t0 = some c →
    ∀ p, (c = .renamed p ∨ c = .copied p) → p ≤ 100 := by
  intro t0 c h p hp
  unfold parse_change_code at h
  split at h
  · cases h
  · rename_i ch rest
    split at h
    · injection h with h; subst h; rcases hp with h | h <;> cases h
    · split at h
      · injection h with h; subst h; rcases hp with h | h <;> cases h
      · split at h
        · injection h with h; subst h; rcases hp with h | h <;> cases h
        · split at h
          · injection h with h; subst h; rcases hp with h | h <;> cases h
          · split at h
            · split at h
              · cases h
              · rename_i q hq
                split at h
                · rename_i hq100
                  injection h with h
                  subst h
                  rcases hp with h | h
                  · injection h with h; subst h; exact hq100
                  · cases h
                · cases h
            · split at h
              · split at h
                · cases h
                · rename_i q hq
                  split at h
                  · rename_i hq100
                    injection h with h
                    subst h
                    rcases hp with h | h
                    · cases h
                    · injection h with h; subst h; exact hq100
                  · cases h
              · cases h

theorem parse_change_code_T :
    ∀ (rest : RStr) (c : PChange), parse_change_code ('T' :: rest) = some c →
    c = .modified := by
  intro rest c h
  simp only [parse_change_code] at h
  rw [if_neg (by decide), if_neg (by decide), if_neg (by decide),
    if_pos (by decide)] at h
  injection h with h
  exact h.symm

theorem parse_change_code_unknown :
    ∀ (c0 : Char) (t0tail : RStr),
    c0 ∉ (['A', 'D', 'M', 'T', 'R', 'C'] : List Char) →
    parse_change_code (c0 :: t0tail) = none := by
  intro c0 t0tail hc0
  simp only [List.mem_cons, List.not_mem_nil, or_false, not_or] at hc0
  obtain ⟨h1, h2, h3, h4, h5, h6⟩ := hc0
  simp only [parse_change_code]
  rw [if_neg h1, if_neg h2, if_neg h3, if_neg h4, if_neg h5, if_neg h6]

/-- C9: delta-line parsing validates exhaustively: a successful parse of a
rename/copy line always saw exactly three tab-separated tokens and any
other kind exactly two; a parsed percentage satisfies `p ≤ 100` (it is a
`u8`, so `0 ≤ p` is inherent); an unknown leading change code makes the
parse fail (a fatal panic, modelled as `none`); and a leading `T` code is
folded into `Modified`. -/
theorem c9_delta_validation :
    (∀ s fd, parse_delta s = some fd →
      ((∃ p, fd.change = .renamed p ∨ fd.change = .copied p) →
        (splitTab s).length = 3) ∧
      ((∀ p, ¬(fd.change = .renamed p ∨ fd.change = .copied p)) →
        (splitTab s).length = 2)) ∧
    (∀ s fd p, parse_delta s = some fd →
      (fd.change = .renamed p ∨ fd.change = .copied p) → p ≤ 100) ∧
    (∀ (s : RStr) (c0 : Char) (t0tail : RStr) (ts : List RStr),
      splitTab s = (c0 :: t0tail) :: ts →
      c0 ∉ (['A', 'D', 'M', 'T', 'R', 'C'] : List Char) → parse_delta s = none) ∧
    (∀ (s : RStr) (t0tail : RStr) (ts : List RStr) (fd : PFileDelta),
      splitTab s = ('T' :: t0tail) :: ts → parse_delta s = some fd →
      fd.change = .modified) := by
  refine ⟨?_, ?_, ?_, ?_⟩
  · intro s fd h
    obtain ⟨t0, rest, hts, _, hrc, hot⟩ := parse_delta_chars s fd h
    constructor
    · intro hp
      rw [hts, List.length_cons, hrc hp]
    · intro hall
      rw [hts, List.length_cons, hot hall]
  · intro s fd p h hp
    obtain ⟨t0, rest, _, hcc, _, _⟩ := parse_delta_chars s fd h
    exact parse_change_code_percent t0 fd.change hcc p hp
  · intro s c0 t0tail ts hts hc0
    cases hpd : parse_delta s with
    | none => rfl
    | some fd =>
      exfalso
      obtain ⟨t0, rest, hts', hcc, _, _⟩ := parse_delta_chars s fd hpd
      rw [hts] at hts'
      injection hts' with ht0 _
      rw [← ht0] at hcc
      rw [parse_change_code_unknown c0 t0tail hc0] at hcc
      cases hcc
  · intro s t0tail ts fd hts h
    obtain ⟨t0, rest, hts', hcc, _, _⟩ := parse_delta_chars s fd h
    rw [hts] at hts'
    injection hts' with ht0 _
    rw [← ht0] at hcc
    exact parse_change_code_T t0tail fd.change hcc

/-- Witness for C9 at concrete delta lines. -/
theorem c9_delta_validation_witness :
    (splitTab ('M' :: '\t' :: ['f'])).length = 2 ∧
    parse_delta ('X' :: '\t' :: ['f']) = none :=
  ⟨(c9_delta_validation.1 ('M' :: '\t' :: ['f']) ⟨.modified, ['f'], []⟩ (by decide)).2
      (fun p hp => hp.elim (fun h => PChange.noConfusion h) (fun h => PChange.noConfusion h)),
    c9_delta_validation.2.2.1 ('X' :: '\t' :: ['f']) 'X' [] [['f']] (by decide) (by decide)⟩

/-! ## Helper lemmas on the working maps and sets (C1) -/

theorem isSome_of_mono {a b : List (String × Nat)}
    (m : ∀ k v, lookupA a k = some v → lookupA b k = some v) {k : String}
    (hs : (lookupA a k).isSome = true) : (lookupA b k).isSome = true := by
  cases hv : lookupA a k with
  | none => rw [hv] at hs; cases hs
  | some v => rw [m k v hv]; rfl

theorem removeA_mem_self {α : Type} :
    ∀ (m : List (String × α)) (key : String) (vs : α) (m' : List (String × α)),
    removeA m key = some (vs, m') → (key, vs) ∈ m := by
  intro m
  induction m with
  | nil => intro key vs m' h; cases h
  | cons kv t ih =>
    intro key vs m' h
    obtain ⟨k0, vs0⟩ := kv
    simp only [removeA] at h
    by_cases hk : k0 = key
    · rw [if_pos hk] at h
      injection h with h
      injection h with h1 h2
      rw [← hk, ← h1]
      exact List.mem_cons_self _ _
    · rw [if_neg hk] at h
      split at h
      · cases h
      · rename_i v' t' hrec
        injection h with h
        injection h with h1 h2
        exact List.mem_cons_of_mem _ (h1 ▸ ih key v' t' hrec)

theorem removeA_mem_rest {α : Type} :
    ∀ (m : List (String × α)) (key : String) (vs : α) (m' : List (String × α)),
    removeA m key = some (vs, m') → ∀ e, e ∈ m' → e ∈ m := by
  intro m
  induction m with
  | nil => intro key vs m' h; cases h
  | cons kv t ih =>
    intro key vs m' h e he
    obtain ⟨k0, vs0⟩ := kv
    simp only [removeA] at h
    by_cases hk : k0 = key
    · rw [if_pos hk] at h
      injection h with h
      injection h with h1 h2
      subst h2
      exact List.mem_cons_of_mem _ he
    · rw [if_neg hk] at h
      split at h
      · cases h
      · rename_i v' t' hrec
        injection h with h
        injection h with h1 h2
        subst h2
        rcases List.mem_cons.mp he with he0 | he1
        · subst he0; exact List.mem_cons_self _ _
        · exact List.mem_cons_of_mem _ (ih key v' t' hrec e he1)

theorem pushEntry_mem :
    ∀ (m : List (String × List String)) (key v : String) (e : String × List String),
    e ∈ pushEntry m key v →
    e ∈ m ∨ (∃ vs, (key, vs) ∈ m ∧ e = (key, vs ++ [v])) ∨ e = (key, [v]) := by
  intro m key v
  induction m with
  | nil =>
    intro e he
    simp only [pushEntry, List.mem_singleton] at he
    exact Or.inr (Or.inr he)
  | cons kv t ih =>
    intro e he
    obtain ⟨k0, vs0⟩ := kv
    simp only [pushEntry] at he
    by_cases hk : k0 = key
    · rw [if_pos hk] at he
      rcases List.mem_cons.mp he with he0 | he1
      · subst hk
        exact Or.inr (Or.inl ⟨vs0, List.mem_cons_self _ _, he0⟩)
      · exact Or.inl (List.mem_cons_of_mem _ he1)
    · rw [if_neg hk] at he
      rcases List.mem_cons.mp he with he0 | he1
      · subst he0; exact Or.inl (List.mem_cons_self _ _)
      · rcases ih e he1 with h0 | ⟨vs, hvs, hee⟩ | h2
        · exact Or.inl (List.mem_cons_of_mem _ h0)
        · exact Or.inr (Or.inl ⟨vs, List.mem_cons_of_mem _ hvs, hee⟩)
        · exact Or.inr (Or.inr h2)

theorem mem_insertPath_cases {l : List String} {p q : String}
    (h : p ∈ insertPath l q) : p = q ∨ p ∈ l := by
  unfold insertPath at h
  by_cases hq : q ∈ l
  · rw [if_pos hq] at h; exact Or.inr h
  · rw [if_neg hq] at h
    rcases List.mem_cons.mp h with h0 | h1
    · exact Or.inl h0
    · exact Or.inr h1

theorem insertPath_superset {l : List String} {p : String} (q : String)
    (h : p ∈ l) : p ∈ insertPath l q := by
  unfold insertPath
  by_cases hq : q ∈ l
  · rw [if_pos hq]; exact h
  · rw [if_neg hq]; exact List.mem_cons_of_mem _ h

theorem mem_removePath {l : List String} {p q : String}
    (h : p ∈ removePath l q) : p ∈ l ∧ p ≠ q := by
  unfold removePath at h
  have := List.mem_filter.mp h
  refine ⟨this.1, ?_⟩
  have hd := this.2
  simpa using hd

theorem not_mem_removePath {l : List String} {p q : String}
    (hp : p ∈ l) (hne : p ≠ q) : p ∈ removePath l q := by
  unfold removePath
  refine List.mem_filter.mpr ⟨hp, ?_⟩
  simpa using hne

/-! ## Preservation of the builder invariant (C1) -/

theorem C1Inv_mono {paths : List String} {R T R' T' : String → Prop}
    {st : HistoryState} (inv : C1Inv paths R T st)
    (hR : ∀ p, R p → R' p) (hT1 : ∀ p, T p → T' p)
    (hT2 : ∀ p, p ∈ paths → T' p → T p ∨ (lookupA st.tree p).isSome = true) :
    C1Inv paths R' T' st where
  keysRC k v hv := (inv.keysRC k v hv).imp id (hR k)
  keysT k v hv := hT1 k (inv.keysT k v hv)
  touchedKey p hp ht := by
    rcases hT2 p hp ht with h | h
    · exact inv.touchedKey p hp h
    · exact h
  lostKey := inv.lostKey
  currRC p hp := (inv.currRC p hp).imp id (hR p)
  pendKey := inv.pendKey

theorem C1Inv_append_node {paths : List String} {R T : String → Prop}
    {st : HistoryState} {node : Nat} {key : String} {st' : HistoryState}
    (h : append_node st node key = some st') (inv : C1Inv paths R T st)
    (hkRC : key ∈ paths ∨ R key) :
    C1Inv paths R (fun p => T p ∨ p = key) st' := by
  obtain ⟨mono, back, hsome, _, hpend, hcur, _, _⟩ := append_node_facts h
  exact {
    keysRC := fun k v hv => by
      rcases back k v hv with hv0 | ⟨hk, _, _⟩
      · exact inv.keysRC k v hv0
      · exact hk ▸ hkRC
    keysT := fun k v hv => by
      rcases back k v hv with hv0 | ⟨hk, _, _⟩
      · exact Or.inl (inv.keysT k v hv0)
      · exact Or.inr hk
    touchedKey := fun p hp ht => by
      rcases ht with ht | ht
      · exact isSome_of_mono mono (inv.touchedKey p hp ht)
      · exact ht ▸ hsome
    lostKey := fun p hp hnc => by
      rw [hcur] at hnc
      exact isSome_of_mono mono (inv.lostKey p hp hnc)
    currRC := fun p hp => by
      rw [hcur] at hp
      exact inv.currRC p hp
    pendKey := fun e he l hl => by
      rw [hpend] at he
      exact isSome_of_mono mono (inv.pendKey e he l hl) }

theorem C1Inv_linkLoop {paths : List String} {R T : String → Prop}
    {ls : List String} {st : HistoryState} {tail : Nat} {st' : HistoryState}
    (h : linkLoop st tail ls = some st') (inv : C1Inv paths R T st)
    (hall : ∀ l, l ∈ ls → (lookupA st.tree l).isSome = true) :
    C1Inv paths R T st' := by
  obtain ⟨_, _, etree, hpend, hcur, _, _⟩ := linkLoop_facts ls st tail st' h
  have ht := etree hall
  exact {
    keysRC := fun k v hv => inv.keysRC k v (ht ▸ hv)
    keysT := fun k v hv => inv.keysT k v (ht ▸ hv)
    touchedKey := fun p hp htp => ht ▸ inv.touchedKey p hp htp
    lostKey := fun p hp hnc => ht ▸ inv.lostKey p hp (hcur ▸ hnc)
    currRC := fun p hp => inv.currRC p (hcur ▸ hp)
    pendKey := fun e he l hl => ht ▸ inv.pendKey e (hpend ▸ he) l hl }

theorem C1Inv_link_copies {paths : List String} {R T : String → Prop}
    {st : HistoryState} {key : String} {st' : HistoryState}
    (h : link_copies st key = some st') (inv : C1Inv paths R T st) :
    C1Inv paths R T st' := by
  unfold link_copies at h
  split at h
  · injection h with h
    subst h
    exact inv
  · rename_i to_link pending' hrem
    split at h
    · cases h
    · rename_i head hh
      split at h
      · cases h
      · rename_i tail ht
        have inv1 : C1Inv paths R T { st with pending_renames := pending' } := {
          keysRC := inv.keysRC
          keysT := inv.keysT
          touchedKey := inv.touchedKey
          lostKey := inv.lostKey
          currRC := inv.currRC
          pendKey := fun e he l hl =>
            inv.pendKey e (removeA_mem_rest st.pending_renames key to_link pending' hrem e he) l hl }
        have hall : ∀ l, l ∈ to_link → (lookupA st.tree l).isSome = true :=
          fun l hl =>
            inv.pendKey (key, to_link)
              (removeA_mem_self st.pending_renames key to_link pending' hrem) l hl
        exact C1Inv_linkLoop h inv1 hall

theorem C1Inv_appendDelta {paths : List String} {R T : String → Prop}
    {st : HistoryState} {cid : Nat} {d : DiffDelta} {st' : HistoryState}
    (h : appendDelta st cid d = some st') (inv : C1Inv paths R T st) :
    C1Inv paths (fun p => R p ∨ rcOldD d p) (fun p => T p ∨ p = d.newPath) st' := by
  unfold appendDelta at h
  by_cases hmem : d.newPath ∈ st.current_paths
  · rw [if_pos hmem] at h
    unfold appendGated at h
    split at h
    · cases h
    · rename_i st2 ha
      -- the freshly seeded state has the same tree / paths / pending as `st`
      have inv1 : C1Inv paths R T (new_node st d.status cid).1 := {
        keysRC := inv.keysRC
        keysT := inv.keysT
        touchedKey := inv.touchedKey
        lostKey := inv.lostKey
        currRC := inv.currRC
        pendKey := inv.pendKey }
      have hkRC : d.newPath ∈ paths ∨ R d.newPath := inv.currRC d.newPath hmem
      have inv2 : C1Inv paths R (fun p => T p ∨ p = d.newPath) st2 :=
        C1Inv_append_node ha inv1 hkRC
      have hsome2 : (lookupA st2.tree d.newPath).isSome = true :=
        (append_node_facts ha).2.2.1
      unfold afterNode at h
      split at h
      · -- modified
        exact C1Inv_mono (C1Inv_link_copies h inv2) (fun p => Or.inl) (fun p => id)
          (fun p _ => Or.inl)
      · -- added
        split at h
        · cases h
        · rename_i st3 hl
          injection h with h
          subst h
          have inv3 := C1Inv_link_copies hl inv2
          have hsome3 : (lookupA st3.tree d.newPath).isSome = true :=
            isSome_of_mono (link_copies_facts hl).1 hsome2
          exact {
            keysRC := fun k v hv => (inv3.keysRC k v hv).imp id Or.inl
            keysT := inv3.keysT
            touchedKey := inv3.touchedKey
            lostKey := fun p hp hnc => by
              by_cases hpn : p = d.newPath
              · exact hpn ▸ hsome3
              · refine inv3.lostKey p hp ?_
                intro hpc
                exact hnc (not_mem_removePath hpc hpn)
            currRC := fun p hp => (inv3.currRC p (mem_removePath hp).1).imp id Or.inl
            pendKey := inv3.pendKey }
      · -- renamed
        rename_i hstat
        split at h
        · cases h
        · rename_i st3 hl
          injection h with h
          subst h
          have inv3 := C1Inv_link_copies hl inv2
          have hsome3 : (lookupA st3.tree d.newPath).isSome = true :=
            isSome_of_mono (link_copies_facts hl).1 hsome2
          exact {
            keysRC := fun k v hv => (inv3.keysRC k v hv).imp id Or.inl
            keysT := inv3.keysT
            touchedKey := inv3.touchedKey
            lostKey := fun p hp hnc => by
              by_cases hpn : p = d.newPath
              · exact hpn ▸ hsome3
              · refine inv3.lostKey p hp ?_
                intro hpc
                exact hnc (not_mem_removePath (insertPath_superset d.oldPath hpc) hpn)
            currRC := fun p hp => by
              rcases mem_insertPath_cases (mem_removePath hp).1 with hpo | hpc
              · exact Or.inr (Or.inr ⟨Or.inl hstat, hpo.symm⟩)
              · exact (inv3.currRC p hpc).imp id Or.inl
            pendKey := fun e he l hl2 => by
              rcases pushEntry_mem st3.pending_renames d.oldPath d.newPath e he with
                he0 | ⟨vs, hvs, hee⟩ | he2
              · exact inv3.pendKey e he0 l hl2
              · rw [hee] at hl2
                rcases List.mem_append.mp hl2 with hl3 | hl3
                · exact inv3.pendKey (d.oldPath, vs) hvs l hl3
                · rw [List.mem_singleton.mp hl3]
                  exact hsome3
              · rw [he2] at hl2
                rw [List.mem_singleton.mp hl2]
                exact hsome3 }
      · -- copied
        rename_i hstat
        split at h
        · cases h
        · rename_i st3 hl
          injection h with h
          subst h
          have inv3 := C1Inv_link_copies hl inv2
          have hsome3 : (lookupA st3.tree d.newPath).isSome = true :=
            isSome_of_mono (link_copies_facts hl).1 hsome2
          exact {
            keysRC := fun k v hv => (inv3.keysRC k v hv).imp id Or.inl
            keysT := inv3.keysT
            touchedKey := inv3.touchedKey
            lostKey := fun p hp hnc => by
              by_cases hpn : p = d.newPath
              · exact hpn ▸ hsome3
              · refine inv3.lostKey p hp ?_

                intro hpc
                exact hnc (not_mem_removePath (insertPath_superset d.oldPath hpc) hpn)
            currRC := fun p hp => by
              rcases mem_insertPath_cases (mem_removePath hp).1 with hpo | hpc
              · exact Or.inr (Or.inr ⟨Or.inr hstat, hpo.symm⟩)
              · exact (inv3.currRC p hpc).imp id Or.inl
            pendKey := fun e he l hl2 => by
              rcases pushEntry_mem st3.pending_renames d.oldPath d.newPath e he with
                he0 | ⟨vs, hvs, hee⟩ | he2
              · exact inv3.pendKey e he0 l hl2
              · rw [hee] at hl2
                rcases List.mem_append.mp hl2 with hl3 | hl3
                · exact inv3.pendKey (d.oldPath, vs) hvs l hl3
                · rw [List.mem_singleton.mp hl3]
                  exact hsome3
              · rw [he2] at hl2
                rw [List.mem_singleton.mp hl2]
                exact hsome3 }
      · -- deleted
        injection h with h
        subst h
        exact C1Inv_mono inv2 (fun p => Or.inl) (fun p => id) (fun p _ => Or.inl)
  · rw [if_neg hmem] at h
    injection h with h
    subst h
    refine C1Inv_mono inv (fun p => Or.inl) (fun p => Or.inl) ?_
    intro p hpaths hp
    rcases hp with hp | hp
    · exact Or.inl hp
    · subst hp
      exact Or.inr (inv.lostKey d.newPath hpaths hmem)

theorem C1Inv_appendDeltas :
    ∀ (ds : List DiffDelta) (st : HistoryState) (cid : Nat) (st' : HistoryState)
      {paths : List String} {R T : String → Prop},
    appendDeltas st cid ds = some st' → C1Inv paths R T st →
    C1Inv paths (fun p => R p ∨ rcOldDs ds p) (fun p => T p ∨ touchDs ds p) st' := by
  intro ds
  induction ds with
  | nil =>
    intro st cid st' paths R T h inv
    injection h with h
    subst h
    refine C1Inv_mono inv (fun p hp => Or.inl hp) (fun p hp => Or.inl hp) ?_
    intro p _ hp
    rcases hp with hp | ⟨e, he, _⟩
    · exact Or.inl hp
    · exact absurd he (List.not_mem_nil e)
  | cons d ds ih =>
    intro st cid st' paths R T h inv
    unfold appendDeltas at h
    split at h
    · cases h
    · rename_i st1 hd
      have inv1 := C1Inv_appendDelta hd inv
      have inv2 := ih st1 cid st' h inv1
      refine C1Inv_mono inv2 ?_ ?_ ?_
      · intro p hp
        rcases hp with (hp | hp) | ⟨e, he, hrc⟩
        · exact Or.inl hp
        · exact Or.inr ⟨d, List.mem_cons_self _ _, hp⟩
        · exact Or.inr ⟨e, List.mem_cons_of_mem _ he, hrc⟩
      · intro p hp
        rcases hp with (hp | hp) | ⟨e, he, hne⟩
        · exact Or.inl hp
        · exact Or.inr ⟨d, List.mem_cons_self _ _, hp.symm⟩
        · exact Or.inr ⟨e, List.mem_cons_of_mem _ he, hne⟩
      · intro p _ hp
        rcases hp with hp | ⟨e, he, hne⟩
        · exact Or.inl (Or.inl (Or.inl hp))
        · rcases List.mem_cons.mp he with he0 | he1
          · subst he0
            exact Or.inl (Or.inl (Or.inr hne.symm))
          · exact Or.inl (Or.inr ⟨e, he1, hne⟩)

theorem C1Inv_gatherLoop :
    ∀ (cs : List CommitDiff) (st st' : HistoryState)
      {paths : List String} {R T : String → Prop},
    gatherLoop st cs = some st' → C1Inv paths R T st →
    C1Inv paths (fun p => R p ∨ rcOld cs p) (fun p => T p ∨ touches cs p) st' := by
  intro cs
  induction cs with
  | nil =>
    intro st st' paths R T h inv
    injection h with h
    subst h
    refine C1Inv_mono inv (fun p hp => Or.inl hp) (fun p hp => Or.inl hp) ?_
    intro p _ hp
    rcases hp with hp | ⟨c, hc, _⟩
    · exact Or.inl hp
    · exact absurd hc (List.not_mem_nil c)
  | cons c cs ih =>
    intro st st' paths R T h inv
    unfold gatherLoop at h
    split at h
    · cases h
    · rename_i st1 hc
      have inv1 := C1Inv_appendDeltas c.deltas st c.cid st1 hc inv
      have inv2 := ih st1 st' h inv1
      refine C1Inv_mono inv2 ?_ ?_ ?_
      · intro p hp
        rcases hp with (hp | hp) | ⟨e, he, hrc⟩
        · exact Or.inl hp
        · exact Or.inr ⟨c, List.mem_cons_self _ _, hp⟩
        · exact Or.inr ⟨e, List.mem_cons_of_mem _ he, hrc⟩
      · intro p hp
        rcases hp with (hp | hp) | ⟨e, he, hne⟩
        · exact Or.inl hp
        · exact Or.inr ⟨c, List.mem_cons_self _ _, hp⟩
        · exact Or.inr ⟨e, List.mem_cons_of_mem _ he, hne⟩
      · intro p _ hp
        rcases hp with hp | ⟨e, he, hne⟩
        · exact Or.inl (Or.inl (Or.inl hp))
        · rcases List.mem_cons.mp he with he0 | he1
          · subst he0
            exact Or.inl (Or.inl (Or.inr hne))
          · exact Or.inl (Or.inr ⟨e, he1, hne⟩)

theorem C1Inv_init (paths : List String) :
    C1Inv paths (fun _ => False) (fun _ => False) (initState paths) where
  keysRC k v hv := by cases hv
  keysT k v hv := by cases hv
  touchedKey p _ hf := False.elim hf
  lostKey p hp hnc := absurd hp hnc
  currRC p hp := Or.inl hp
  pendKey e he := absurd he (List.not_mem_nil e)

/-- C1 amended: every key of the final tree is either a caller-supplied path
or the old name of some rename/copy delta of the stream (rename-following
inserts ancestor names as fresh tree keys, so keys are not confined to the
caller's set); and for a caller-supplied path the claimed iff does hold: it
appears as a key iff at least one processed commit touched it under that
name during the walk. -/
theorem c1_keys_amended (paths : List String) (cs : List CommitDiff)
    (st : HistoryState) (h : gather_history paths cs = some st) :
    (∀ k v, lookupA st.tree k = some v → k ∈ paths ∨ rcOld cs k) ∧
    (∀ p, p ∈ paths → ((lookupA st.tree p).isSome = true ↔ touches cs p)) := by
  have inv := C1Inv_gatherLoop cs (initState paths) st h (C1Inv_init paths)
  constructor
  · intro k v hv
    rcases inv.keysRC k v hv with hk | hk | hk
    · exact Or.inl hk
    · exact hk.elim
    · exact Or.inr hk
  · intro p hp
    constructor
    · intro hs
      obtain ⟨v, hv⟩ := Option.isSome_iff_exists.mp hs
      rcases inv.keysT p v hv with hf | ht
      · exact hf.elim
      · exact ht
    · intro ht
      exact inv.touchedKey p hp (Or.inr ht)

/-- Witness for C1's amended statement on the rename stream: the extra key
`a` is accounted for as a rename source. -/
theorem c1_keys_amended_witness :
    ("a" ∈ (["b"] : List String) ∨
      rcOld [⟨2, [⟨.renamed, "b", "a"⟩]⟩, ⟨1, [⟨.modified, "a", ""⟩]⟩] "a") :=
  (c1_keys_amended ["b"] [⟨2, [⟨.renamed, "b", "a"⟩]⟩, ⟨1, [⟨.modified, "a", ""⟩]⟩]
    ((gather_history ["b"]
      [⟨2, [⟨.renamed, "b", "a"⟩]⟩, ⟨1, [⟨.modified, "a", ""⟩]⟩]).getD default)
    (by decide)).1 "a" 1 (by decide)

/-! ## SHA1 round-trip lemmas (C8) -/

theorem hex_csize : ∀ c ∈ hexChars, csize c = 1 := by decide

theorem hex_toDigit : ∀ c ∈ hexChars, toDigit16 c = some (hexVal c) := by decide

theorem hex_val_lt : ∀ c ∈ hexChars, hexVal c < 16 := by decide

theorem hex_lower : ∀ c ∈ hexChars, Nat.digitChar (hexVal c) = c.toLower := by decide

theorem hex_not_sign : ∀ c ∈ hexChars, c ≠ '+' ∧ c ≠ '-' := by decide

theorem byteLen_ascii : ∀ (s : RStr), (∀ c ∈ s, csize c = 1) → byteLen s = s.length := by
  intro s
  induction s with
  | nil => intro _; rfl
  | cons c cs ih =>
    intro h
    unfold byteLen
    rw [h c (List.mem_cons_self _ _), ih fun e he => h e (List.mem_cons_of_mem _ he)]
    rw [List.length_cons]
    omega

theorem dropBytes_ascii :
    ∀ (s : RStr) (n : Nat), (∀ c ∈ s, csize c = 1) → n ≤ s.length →
    dropBytes s n = some (s.drop n) := by
  intro s
  induction s with
  | nil =>
    intro n _ hn
    cases n with
    | zero => rfl
    | succ m => exact absurd hn (by simp)
  | cons c cs ih =>
    intro n h hn
    cases n with
    | zero => rfl
    | succ m =>
      have hc : csize c = 1 := h c (List.mem_cons_self _ _)
      unfold dropBytes
      rw [if_pos (by omega)]
      rw [hc]
      have : m + 1 - 1 = m := by omega
      rw [this]
      exact ih m (fun e he => h e (List.mem_cons_of_mem _ he))
        (by simpa using Nat.le_of_succ_le_succ hn)

theorem takeBytes_ascii :
    ∀ (s : RStr) (n : Nat), (∀ c ∈ s, csize c = 1) → n ≤ s.length →
    takeBytes s n = some (s.take n) := by
  intro s
  induction s with
  | nil =>
    intro n _ hn
    cases n with
    | zero => rfl
    | succ m => exact absurd hn (by simp)
  | cons c cs ih =>
    intro n h hn
    cases n with
    | zero => rfl
    | succ m =>
      have hc : csize c = 1 := h c (List.mem_cons_self _ _)
      unfold takeBytes
      rw [if_pos (by omega)]
      rw [hc]
      have hmm : m + 1 - 1 = m := by omega
      rw [hmm]
      rw [ih m (fun e he => h e (List.mem_cons_of_mem _ he))
        (by simpa using Nat.le_of_succ_le_succ hn)]
      rfl

theorem sliceBytes_ascii {s : RStr} (h1 : ∀ c ∈ s, csize c = 1) {a b : Nat}
    (hab : a ≤ b) (hb : b ≤ s.length) :
    sliceBytes s a b = some ((s.drop a).take (b - a)) := by
  unfold sliceBytes
  rw [if_pos hab, dropBytes_ascii s a h1 (le_trans hab hb)]
  exact takeBytes_ascii (s.drop a) (b - a)
    (fun e he => h1 e (List.mem_of_mem_drop he))
    (by rw [List.length_drop]; omega)

theorem fromStr_pair {h1 h2 : Char} (hh1 : h1 ∈ hexChars) (hh2 : h2 ∈ hexChars) :
    fromStrRadix16U8 [h1, h2] = some (hexVal h1 * 16 + hexVal h2) := by
  have hd1 := hex_toDigit h1 hh1
  have hd2 := hex_toDigit h2 hh2
  have hv1 := hex_val_lt h1 hh1
  have hv2 := hex_val_lt h2 hh2
  obtain ⟨hp1, hm1⟩ := hex_not_sign h1 hh1
  simp only [fromStrRadix16U8]
  rw [if_neg hp1, if_neg hm1]
  simp only [posDigits, hd1, hd2]
  rw [if_pos (by omega : 0 * 16 + hexVal h1 ≤ 255)]
  rw [if_pos (by omega : (0 * 16 + hexVal h1) * 16 + hexVal h2 ≤ 255)]
  congr 1
  omega

theorem byteHex_pair {v1 v2 : Nat} (hv1 : v1 < 16) (hv2 : v2 < 16) :
    byteHex (v1 * 16 + v2) = [Nat.digitChar v1, Nat.digitChar v2] := by
  unfold byteHex
  have e1 : (v1 * 16 + v2) / 16 = v1 := by omega
  have e2 : (v1 * 16 + v2) % 16 = v2 := by omega
  rw [e1, e2]

theorem sha1Loop_hex :
    ∀ (rem i : Nat) (s : RStr), (∀ c ∈ s, c ∈ hexChars) → s.length = 40 →
    2 * i + 2 * rem = 40 →
    ∃ bs, sha1Loop s i rem = .ok bs ∧
      sha1ToString bs = (s.drop (2 * i)).map Char.toLower := by
  intro rem
  induction rem with
  | zero =>
    intro i s hhex hlen hi
    refine ⟨[], rfl, ?_⟩
    have h40 : 2 * i = 40 := by omega
    rw [h40, List.drop_eq_nil_of_le (by omega : s.length ≤ 40)]
    rfl
  | succ rem ih =>
    intro i s hhex hlen hi
    have hcz : ∀ c ∈ s, csize c = 1 := fun c hc => hex_csize c (hhex c hc)
    have hslice : sliceBytes s (2 * i) (2 * i + 2) = some ((s.drop (2 * i)).take 2) := by
      have h := sliceBytes_ascii hcz (show 2 * i ≤ 2 * i + 2 by omega)
        (show 2 * i + 2 ≤ s.length by omega)
      rw [h, show 2 * i + 2 - 2 * i = 2 by omega]
    have hdl : (s.drop (2 * i)).length = 40 - 2 * i := by
      rw [List.length_drop, hlen]
    obtain ⟨h1, t1, he1⟩ : ∃ h1 t1, s.drop (2 * i) = h1 :: t1 := by
      cases hd : s.drop (2 * i) with
      | nil => rw [hd] at hdl; simp at hdl; omega
      | cons a t => exact ⟨a, t, rfl⟩
    obtain ⟨h2, rest, he2⟩ : ∃ h2 rest, t1 = h2 :: rest := by
      have ht1 : t1.length = 39 - 2 * i := by
        have := hdl
        rw [he1] at this
        simp at this
        omega
      cases hd : t1 with
      | nil => rw [hd] at ht1; simp at ht1; omega
      | cons a t => exact ⟨a, t, rfl⟩
    have hh1 : h1 ∈ hexChars :=
      hhex h1 (List.mem_of_mem_drop (he1 ▸ List.mem_cons_self _ _))
    have hh2 : h2 ∈ hexChars :=
      hhex h2 (List.mem_of_mem_drop
        (he1 ▸ he2 ▸ List.mem_cons_of_mem _ (List.mem_cons_self _ _)))
    have htake : (s.drop (2 * i)).take 2 = [h1, h2] := by
      rw [he1, he2]
      rfl
    have hdrop2 : s.drop (2 * (i + 1)) = rest := by
      rw [show 2 * (i + 1) = 2 * i + 2 by omega, ← List.drop_drop 2 (2 * i) s,
        he1, he2]
      rfl
    obtain ⟨bs, hok, hrender⟩ := ih (i + 1) s hhex hlen (by omega)
    refine ⟨(hexVal h1 * 16 + hexVal h2) :: bs, ?_, ?_⟩
    · unfold sha1Loop
      rw [hslice]
      simp only [htake, fromStr_pair hh1 hh2, hok]
    · have hv1 := hex_val_lt h1 hh1
      have hv2 := hex_val_lt h2 hh2
      show byteHex (hexVal h1 * 16 + hexVal h2) ++ sha1ToString bs =
        (s.drop (2 * i)).map Char.toLower
      rw [byteHex_pair hv1 hv2, hex_lower h1 hh1, hex_lower h2 hh2,
        hrender, hdrop2, he1, he2]
      rfl

/-- C8: the SHA1 round-trip law holds: for every 40-character string of hex
digits (upper or lower case), `SHA1::parse` succeeds and rendering the
parsed bytes through the `Display` implementation yields the input
lower-cased. -/
theorem c8_round_trip (s : RStr) (hlen : s.length = 40)
    (hhex : ∀ c ∈ s, c ∈ hexChars) :
    parsedString s = some (s.map Char.toLower) := by
  have hcz : ∀ c ∈ s, csize c = 1 := fun c hc => hex_csize c (hhex c hc)
  have hbl : byteLen s = 40 := by rw [byteLen_ascii s hcz, hlen]
  obtain ⟨bs, hok, hrender⟩ := sha1Loop_hex 20 0 s hhex hlen (by omega)
  unfold parsedString SHA1parse
  rw [if_neg (by omega : ¬byteLen s ≠ 40), hok]
  show some (sha1ToString bs) = some (s.map Char.toLower)
  rw [hrender, show 2 * 0 = 0 by omega, List.drop_zero]

/-- Witness for C8 on a concrete all-uppercase hex string. -/
theorem c8_round_trip_witness :
    parsedString (List.replicate 40 'A') =
      some ((List.replicate 40 'A').map Char.toLower) :=
  c8_round_trip (List.replicate 40 'A') (by decide) (by decide)

